import Mathlib

/-!
Verification of the RIOT-rs / Ariel OS thread-kernel core.

This file shallowly embeds the scheduler nucleus of the repository:
the circular-list pool (`riot-rs-runqueue/src/clist.rs`), the single-core
run queue (`riot-rs-runqueue/src/runqueue.rs`, the `N_CORES = 1` impl of
`GlobalRunqueue`), the scheduler state slice of `ariel-os-threads/src/lib.rs`,
the priority-inheriting lock and mutex (`riot-rs-threads/src/sync/lock.rs`,
`riot-rs-threads/src/sync/mutex.rs`, `riot-rs-threads/src/threadlist.rs`)
and the thread-flag operations (`riot-rs-threads/src/thread_flags.rs`).

Rust `u8`/`u16`/`usize` values are embedded as `Nat` with explicit masks and
wrap arithmetic where overflow matters; fixed-size Rust arrays are embedded
as total functions `Nat → α` together with explicit bound hypotheses where
the source asserts them; code paths that can panic (`assert!`, `expect`,
`unwrap`) are embedded in the `Option` monad, `none` meaning a panic.
-/

/-- Pointwise update of a function table, modelling a Rust array store `a[i] = v`. -/
def updf {α : Type} (f : Nat → α) (i : Nat) (v : α) : Nat → α :=
  fun j => if j = i then v else f j

/-- The reserved list terminator value `0xFF` (`CList::sentinel` in clist.rs). -/
def sentinel : Nat := 255

/-- Embedding of `CList<N_QUEUES, N_THREADS>` (clist.rs): an array of circular
singly-linked lists over a shared node space.  The `tail` and `next_idxs`
`u8`-arrays are embedded as total functions on `Nat`; index bounds from the
const generics appear as hypotheses of the theorems that need them. -/
structure CList where
  tail : Nat → Nat
  next_idxs : Nat → Nat

/-- Embedding of `CList::new`: both arrays are filled with the sentinel. -/
def CList.new : CList :=
  { tail := fun _ => sentinel, next_idxs := fun _ => sentinel }

/-- Embedding of `CList::is_empty`. -/
def CList.is_empty (c : CList) (rq : Nat) : Bool :=
  c.tail rq == sentinel

/-- Embedding of `CList::push`.  The Rust code runs `assert!(n < Self::sentinel())`,
so the panic case is `none`.  The two `next_idxs` stores of the non-empty branch
are composed left-to-right exactly as in the source. -/
def CList.push (c : CList) (n rq : Nat) : Option CList :=
  if n < sentinel then
    some <|
      if c.next_idxs n = sentinel then
        if c.tail rq = sentinel then
          { tail := updf c.tail rq n, next_idxs := updf c.next_idxs n n }
        else
          { tail := updf c.tail rq n,
            next_idxs :=
              updf (updf c.next_idxs n (c.next_idxs (c.tail rq))) (c.tail rq) n }
      else c
  else none

/-- Embedding of `CList::pop_head`: returns the removed head (if any) and the
updated list pool. -/
def CList.pop_head (c : CList) (rq : Nat) : Option Nat × CList :=
  if c.tail rq = sentinel then
    (none, c)
  else
    let head := c.next_idxs (c.tail rq)
    if head = c.tail rq then
      (some head,
        { tail := updf c.tail rq sentinel,
          next_idxs := updf c.next_idxs head sentinel })
    else
      (some head,
        { tail := c.tail,
          next_idxs :=
            updf (updf c.next_idxs (c.tail rq) (c.next_idxs head)) head sentinel })

/-- Embedding of `CList::peek_head`. -/
def CList.peek_head (c : CList) (rq : Nat) : Option Nat :=
  if c.tail rq = sentinel then none else some (c.next_idxs (c.tail rq))

/-- Embedding of `CList::advance`: rotates the queue by moving `tail` to the
old head; returns whether the queue was non-empty. -/
def CList.advance (c : CList) (rq : Nat) : Bool × CList :=
  if c.tail rq = sentinel then
    (false, c)
  else
    (true, { c with tail := updf c.tail rq (c.next_idxs (c.tail rq)) })

/-- Bitwise complement of a Rust `usize` (`!x` on a 64-bit target), used by
`bitcache &= !(1 << rq)` in runqueue.rs. -/
def usizeNot (x : Nat) : Nat := (2 ^ 64 - 1) ^^^ x

/-- Embedding of `RunQueue<N_QUEUES, N_THREADS>` for `N_CORES = 1` (runqueue.rs).
The `next` per-core allocation array is used only by the multi-core default
impl and is never read or written by the single-core trait impl embedded here,
so it is omitted from the state. -/
structure RunQueue where
  bitcache : Nat
  queues : CList

/-- Embedding of `RunQueue::new` (bitcache empty, lists empty). -/
def RunQueue.new : RunQueue :=
  { bitcache := 0, queues := CList.new }

/-- Embedding of the single-core `GlobalRunqueue::add` (runqueue.rs lines 299-306):
sets bit `rq` of the bitcache, pushes `n`, and reports `CoreId(0)` iff the
bitcache grew.  The two `debug_assert!`s are the outer bounds check. -/
def RunQueue.add (nQueues nThreads : Nat) (s : RunQueue) (n rq : Nat) :
    Option (RunQueue × Option Nat) :=
  if n < nThreads ∧ rq < nQueues then
    match s.queues.push n rq with
    | none => none
    | some q =>
      some ({ bitcache := s.bitcache ||| (1 <<< rq), queues := q },
        if s.bitcache ||| (1 <<< rq) > s.bitcache then some 0 else none)
  else none

/-- Embedding of the single-core `GlobalRunqueue::del` (runqueue.rs lines 318-327):
pops the head, panics (`assert_eq!`) unless the popped element is `n`, then
clears bit `rq` if the queue became empty. -/
def RunQueue.del (nQueues nThreads : Nat) (s : RunQueue) (n rq : Nat) :
    Option (RunQueue × Option Nat) :=
  if n < nThreads ∧ rq < nQueues then
    let (popped, q) := s.queues.pop_head rq
    if popped = some n then
      some ({ bitcache :=
                if q.is_empty rq then s.bitcache &&& usizeNot (1 <<< rq)
                else s.bitcache,
              queues := q }, some 0)
    else none
  else none

/-- Embedding of the single-core `GlobalRunqueue::advance` (runqueue.rs lines
313-316): ignores the thread argument and rotates queue `rq`. -/
def RunQueue.advance (nQueues : Nat) (s : RunQueue) (_n rq : Nat) :
    Option (RunQueue × Option Nat) :=
  if rq < nQueues then
    let (moved, q) := s.queues.advance rq
    some ({ s with queues := q }, if moved then some 0 else none)
  else none

/-- Modelled from the spec: `RunQueue::pop_head(n, p)` belongs to the
`ariel-os-runqueue` crate, which is not under src/ (only its callers in
`ariel-os-threads/src/lib.rs` are).  Per spec section 4.2 it "pops and clears
the bit if the queue became empty"; the thread argument is not consulted. -/
def RunQueue.pop_head (nQueues : Nat) (s : RunQueue) (_n rq : Nat) :
    Option (Option Nat × RunQueue) :=
  if rq < nQueues then
    let (popped, q) := s.queues.pop_head rq
    some (popped,
      { bitcache :=
          if q.is_empty rq then s.bitcache &&& usizeNot (1 <<< rq)
          else s.bitcache,
        queues := q })
  else none

/-- Last element of a list, with the sentinel as default for the empty list. -/
def lastD (l : List Nat) : Nat := l.getLast?.getD sentinel

/-- Head element of a list, with the sentinel as default for the empty list. -/
def headD (l : List Nat) : Nat := l.head?.getD sentinel

/-- The `next_idxs` function links each element of `l` to its successor. -/
def chainNext (f : Nat → Nat) : List Nat → Prop
  | [] => True
  | [_] => True
  | a :: b :: t => f a = b ∧ chainNext f (b :: t)

/-- Representation predicate: list `l` (head first) is the exact content of
circular queue `q` of the pool `c`: `tail q` names the last element, the
`next_idxs` chain follows `l`, and the last element links back to the head. -/
def QueueRep (c : CList) (q : Nat) (l : List Nat) : Prop :=
  match l with
  | [] => c.tail q = sentinel
  | _ :: _ => c.tail q = lastD l ∧ c.next_idxs (lastD l) = headD l ∧
      chainNext c.next_idxs l

theorem lastD_concat (l : List Nat) (n : Nat) : lastD (l ++ [n]) = n := by
  simp [lastD]

theorem lastD_cons_cons (a b : Nat) (t : List Nat) :
    lastD (a :: b :: t) = lastD (b :: t) := by
  simp [lastD, List.getLast?_cons_cons]

theorem lastD_mem {l : List Nat} (h : l ≠ []) : lastD l ∈ l := by
  cases l with
  | nil => exact absurd rfl h
  | cons x xs =>
    simp only [lastD]
    have hg : (x :: xs).getLast? = some ((x :: xs).getLast (by simp)) :=
      List.getLast?_eq_getLast _ (by simp)
    rw [hg]
    exact List.getLast_mem _

theorem headD_mem {l : List Nat} (h : l ≠ []) : headD l ∈ l := by
  cases l with
  | nil => exact absurd rfl h
  | cons x xs => simp [headD]

theorem chainNext_tail {f : Nat → Nat} : ∀ {l : List Nat} {a : Nat},
    chainNext f (a :: l) → chainNext f l
  | [], _, _ => trivial
  | [_], _, _ => trivial
  | _ :: _ :: _, _, h => h.2

theorem chainNext_head {f : Nat → Nat} {a b : Nat} {t : List Nat}
    (h : chainNext f (a :: b :: t)) : f a = b := h.1

theorem chainNext_congr {f g : Nat → Nat} : ∀ {l : List Nat},
    l.Nodup → (∀ m ∈ l, m ≠ lastD l → f m = g m) → chainNext f l → chainNext g l
  | [], _, _, _ => trivial
  | [_], _, _, _ => trivial
  | a :: b :: t, hnd, hcong, ⟨hab, hch⟩ => by
    refine ⟨?_, ?_⟩
    · rw [← hcong a (by simp) ?_, hab]
      have hmem : lastD (b :: t) ∈ b :: t := lastD_mem (by simp)
      have : a ∉ b :: t := by
        have := hnd
        simp only [List.nodup_cons] at this
        exact this.1
      rw [lastD_cons_cons]
      intro heq
      exact this (heq ▸ hmem)
    · exact chainNext_congr (List.Nodup.of_cons hnd)
        (fun m hm hml => hcong m (by simp [hm]) (by rwa [lastD_cons_cons])) hch

theorem chainNext_concat {f : Nat → Nat} : ∀ {l : List Nat} {n : Nat},
    l ≠ [] → chainNext f l → f (lastD l) = n → chainNext f (l ++ [n])
  | [], _, h, _, _ => absurd rfl h
  | [a], n, _, _, hl => by
    refine ⟨?_, trivial⟩
    simpa [lastD] using hl
  | a :: b :: t, n, _, ⟨hab, hch⟩, hl => by
    refine ⟨hab, ?_⟩
    exact chainNext_concat (by simp) hch (by rwa [lastD_cons_cons] at hl)

theorem chainNext_mem_of_mem {f : Nat → Nat} : ∀ {l : List Nat} {x : Nat},
    chainNext f l → x ∈ l → f x ∈ l ∨ x = lastD l
  | [], _, _, hx => absurd hx (by simp)
  | [a], x, _, hx => by
    right
    simp only [List.mem_singleton] at hx
    simp [hx, lastD]
  | a :: b :: t, x, ⟨hab, hch⟩, hx => by
    rcases List.mem_cons.1 hx with h | h
    · left
      subst h
      rw [hab]
      simp
    · rcases chainNext_mem_of_mem hch h with h2 | h2
      · left; exact List.mem_cons_of_mem _ h2
      · right; rwa [lastD_cons_cons]

/-- In a represented non-empty circular queue, every member has a non-sentinel
`next_idxs` entry (the links stay inside the queue). -/
theorem QueueRep_mem_next_ne {c : CList} {q : Nat} {l : List Nat}
    (hrep : QueueRep c q l) (hb : ∀ m ∈ l, m < sentinel) :
    ∀ m ∈ l, c.next_idxs m ≠ sentinel := by
  intro m hm
  cases l with
  | nil => simp at hm
  | cons x xs =>
    obtain ⟨-, hwrap, hch⟩ := hrep
    rcases chainNext_mem_of_mem hch hm with h | h
    · exact Nat.ne_of_lt (hb _ h)
    · rw [h, hwrap]
      exact Nat.ne_of_lt (hb _ (headD_mem (by simp)))

/-- Fresh nodes (sentinel `next_idxs`) are not members of a represented queue. -/
theorem QueueRep_fresh_not_mem {c : CList} {q : Nat} {l : List Nat}
    (hrep : QueueRep c q l) (hb : ∀ m ∈ l, m < sentinel) {n : Nat}
    (hn : c.next_idxs n = sentinel) : n ∉ l :=
  fun hmem => QueueRep_mem_next_ne hrep hb n hmem hn

/-- A represented queue only depends on `tail` at `q` and on `next_idxs` at its
members, so it is stable under updates elsewhere. -/
theorem QueueRep_congr {c c' : CList} {q : Nat} {l : List Nat}
    (hrep : QueueRep c q l) (hnd : l.Nodup)
    (ht : c'.tail q = c.tail q)
    (hn : ∀ m ∈ l, c'.next_idxs m = c.next_idxs m) : QueueRep c' q l := by
  cases l with
  | nil => simpa [QueueRep, ht] using hrep
  | cons x xs =>
    obtain ⟨h1, h2, h3⟩ := hrep
    refine ⟨ht.trans h1, ?_, ?_⟩
    · rw [hn _ (lastD_mem (by simp)), h2]
    · exact chainNext_congr hnd (fun m hm _ => (hn m hm).symm) h3

theorem headD_cons (x : Nat) (xs : List Nat) : headD (x :: xs) = x := by
  simp [headD]

theorem lastD_singleton (x : Nat) : lastD [x] = x := by
  simp [lastD]

theorem QueueRep_nil {c : CList} {q : Nat} :
    QueueRep c q [] ↔ c.tail q = sentinel := Iff.rfl

theorem QueueRep_cons {c : CList} {q x : Nat} {xs : List Nat} :
    QueueRep c q (x :: xs) ↔
      (c.tail q = lastD (x :: xs) ∧
       c.next_idxs (lastD (x :: xs)) = headD (x :: xs) ∧
       chainNext c.next_idxs (x :: xs)) := Iff.rfl

theorem lastD_cons_concat (x n : Nat) (xs : List Nat) :
    lastD (x :: (xs ++ [n])) = n := by
  rw [show x :: (xs ++ [n]) = (x :: xs) ++ [n] from rfl, lastD_concat]

theorem CList.push_rep {c : CList} {q n : Nat} {l : List Nat}
    (hrep : QueueRep c q l) (hnd : l.Nodup) (hb : ∀ m ∈ l, m < sentinel)
    (hn : c.next_idxs n = sentinel) (hlt : n < sentinel) :
    ∃ c', c.push n q = some c' ∧ QueueRep c' q (l ++ [n]) ∧
      (∀ q', q' ≠ q → c'.tail q' = c.tail q') ∧
      (∀ m, m ∉ n :: l → c'.next_idxs m = c.next_idxs m) := by
  cases l with
  | nil =>
    have htq : c.tail q = sentinel := QueueRep_nil.1 hrep
    have hpush : c.push n q =
        some { tail := updf c.tail q n, next_idxs := updf c.next_idxs n n } := by
      rw [CList.push, if_pos hlt, if_pos hn, if_pos htq]
    refine ⟨_, hpush, ?_, ?_, ?_⟩
    · simp only [List.nil_append]
      rw [QueueRep_cons]
      exact ⟨by simp [updf, lastD], by simp [updf, lastD, headD], trivial⟩
    · intro q' hq'
      simp [updf, hq']
    · intro m hm
      simp only [List.mem_singleton, List.not_mem_nil, or_false] at hm
      simp [updf, hm]
  | cons x xs =>
    obtain ⟨h1, h2, h3⟩ := QueueRep_cons.1 hrep
    have hmemt : lastD (x :: xs) ∈ x :: xs := lastD_mem (by simp)
    have htne : c.tail q ≠ sentinel := by
      rw [h1]; exact Nat.ne_of_lt (hb _ hmemt)
    have hnotmem : n ∉ x :: xs :=
      QueueRep_fresh_not_mem hrep hb hn
    have hnet : n ≠ lastD (x :: xs) := fun h => hnotmem (h ▸ hmemt)
    have hpush : c.push n q =
        some { tail := updf c.tail q n,
               next_idxs :=
                 updf (updf c.next_idxs n (c.next_idxs (c.tail q))) (c.tail q) n } := by
      rw [CList.push, if_pos hlt, if_pos hn, if_neg htne]
    refine ⟨_, hpush, ?_, ?_, ?_⟩
    · have hne : (x :: xs) ++ [n] ≠ [] := by simp
      rcases List.exists_cons_of_ne_nil hne with ⟨y, ys, hy⟩
      rw [hy, QueueRep_cons, ← hy]
      have hheadD : headD ((x :: xs) ++ [n]) = x := by simp [headD]
      have hx : c.next_idxs (c.tail q) = x := by
        rw [h1, h2, headD_cons]
      have hnet' : n ≠ c.tail q := by rw [h1]; exact hnet
      refine ⟨by simp [updf, lastD_cons_concat], ?_, ?_⟩
      · rw [show x :: xs ++ [n] = x :: (xs ++ [n]) from rfl, lastD_cons_concat,
          headD_cons]
        simp [updf, hnet', hx]
      · have hchl : chainNext
            (updf (updf c.next_idxs n (c.next_idxs (c.tail q))) (c.tail q) n)
            (x :: xs) := by
          refine chainNext_congr hnd ?_ h3
          intro m hm hml
          have hmn : m ≠ n := fun h => hnotmem (h ▸ hm)
          have hmt : m ≠ c.tail q := by rw [h1]; exact hml
          simp [updf, hmn, hmt]
        refine chainNext_concat (by simp) hchl ?_
        simp only [updf]
        rw [h1, if_pos rfl]
    · intro q' hq'
      simp [updf, hq']
    · intro m hm
      have hmn : m ≠ n := fun h => hm (h ▸ List.mem_cons_self _ _)
      have hmt : m ≠ c.tail q := by
        rw [h1]
        intro h
        exact hm (List.mem_cons_of_mem _ (h ▸ hmemt))
      simp [updf, hmn, hmt]

theorem CList.pop_head_empty {c : CList} {q : Nat} (hrep : QueueRep c q []) :
    c.pop_head q = (none, c) := by
  rw [CList.pop_head, if_pos (QueueRep_nil.1 hrep)]

theorem CList.advance_empty {c : CList} {q : Nat} (hrep : QueueRep c q []) :
    c.advance q = (false, c) := by
  rw [CList.advance, if_pos (QueueRep_nil.1 hrep)]

theorem CList.pop_head_rep {c : CList} {q x : Nat} {xs : List Nat}
    (hrep : QueueRep c q (x :: xs)) (hnd : (x :: xs).Nodup)
    (hb : ∀ m ∈ x :: xs, m < sentinel) :
    ∃ c', c.pop_head q = (some x, c') ∧ QueueRep c' q xs ∧
      c'.next_idxs x = sentinel ∧
      (∀ q', q' ≠ q → c'.tail q' = c.tail q') ∧
      (∀ m, m ∉ x :: xs → c'.next_idxs m = c.next_idxs m) := by
  obtain ⟨h1, h2, h3⟩ := QueueRep_cons.1 hrep
  have hmemt : lastD (x :: xs) ∈ x :: xs := lastD_mem (by simp)
  have htne : c.tail q ≠ sentinel := by
    rw [h1]; exact Nat.ne_of_lt (hb _ hmemt)
  have hhead : c.next_idxs (c.tail q) = x := by
    rw [h1, h2, headD_cons]
  by_cases hxs : xs = []
  · subst hxs
    have hxt : x = c.tail q := by
      rw [h1, lastD_singleton]
    have hpop : c.pop_head q =
        (some x,
          { tail := updf c.tail q sentinel,
            next_idxs := updf c.next_idxs x sentinel }) := by
      rw [CList.pop_head, if_neg htne]
      simp only [hhead]
      rw [if_pos hxt]
    refine ⟨_, hpop, by simp [QueueRep_nil, updf], by simp [updf], ?_, ?_⟩
    · intro q' hq'
      simp [updf, hq']
    · intro m hm
      simp only [List.mem_singleton, List.not_mem_nil, or_false] at hm
      simp [updf, hm]
  · rcases List.exists_cons_of_ne_nil hxs with ⟨y, ys, hy⟩
    have hxnotmem : x ∉ xs := (List.nodup_cons.1 hnd).1
    have hlast : lastD (x :: xs) = lastD xs := by
      rw [hy, lastD_cons_cons]
    have hxt : x ≠ c.tail q := by
      rw [h1, hlast]
      intro h
      exact hxnotmem (h ▸ lastD_mem hxs)
    have hpop : c.pop_head q =
        (some x,
          { tail := c.tail,
            next_idxs :=
              updf (updf c.next_idxs (c.tail q) (c.next_idxs x)) x sentinel }) := by
      rw [CList.pop_head, if_neg htne]
      simp only [hhead]
      rw [if_neg hxt]
    have hnxy : c.next_idxs x = y := by
      rw [hy] at h3
      exact chainNext_head h3
    have htmem : lastD xs ∈ xs := lastD_mem hxs
    have htx : lastD xs ≠ x := fun h => hxnotmem (h ▸ htmem)
    refine ⟨_, hpop, ?_, by simp [updf], ?_, ?_⟩
    · rw [hy, QueueRep_cons, ← hy]
      refine ⟨by rwa [hlast] at h1, ?_, ?_⟩
      · have hheadxs : headD xs = y := by rw [hy, headD_cons]
        have hteq : lastD xs = c.tail q := by rw [h1, hlast]
        rw [hheadxs]
        simp only [updf]
        rw [if_neg htx, if_pos hteq, hnxy]
      · have hchxs : chainNext c.next_idxs xs := chainNext_tail h3
        refine chainNext_congr (List.Nodup.of_cons hnd) ?_ hchxs
        intro m hm hml
        have hmx : m ≠ x := fun h => hxnotmem (h ▸ hm)
        have hmt : m ≠ c.tail q := by
          rw [h1, hlast]
          exact hml
        simp [updf, hmx, hmt]
    · intro q' _
      rfl
    · intro m hm
      have hmx : m ≠ x := fun h => hm (h ▸ List.mem_cons_self _ _)
      have hmt : m ≠ c.tail q := by
        intro h
        rw [h, h1] at hm
        exact hm hmemt
      simp [updf, hmx, hmt]

theorem CList.advance_rep {c : CList} {q x : Nat} {xs : List Nat}
    (hrep : QueueRep c q (x :: xs)) (hnd : (x :: xs).Nodup)
    (hb : ∀ m ∈ x :: xs, m < sentinel) :
    ∃ c', c.advance q = (true, c') ∧ QueueRep c' q (xs ++ [x]) ∧
      c'.next_idxs = c.next_idxs ∧
      (∀ q', q' ≠ q → c'.tail q' = c.tail q') := by
  obtain ⟨h1, h2, h3⟩ := QueueRep_cons.1 hrep
  have hmemt : lastD (x :: xs) ∈ x :: xs := lastD_mem (by simp)
  have htne : c.tail q ≠ sentinel := by
    rw [h1]; exact Nat.ne_of_lt (hb _ hmemt)
  have hhead : c.next_idxs (c.tail q) = x := by
    rw [h1, h2, headD_cons]
  have hadv : c.advance q =
      (true, { c with tail := updf c.tail q (c.next_idxs (c.tail q)) }) := by
    rw [CList.advance, if_neg htne]
  refine ⟨_, hadv, ?_, rfl, ?_⟩
  · by_cases hxs : xs = []
    · subst hxs
      simp only [List.nil_append]
      rw [QueueRep_cons]
      have hxx : c.next_idxs x = x := by
        have h2x := h2
        rwa [lastD_singleton, headD_cons] at h2x
      refine ⟨?_, ?_, trivial⟩
      · simp [updf, lastD_singleton, hhead]
      · rw [lastD_singleton, headD_cons, hxx]
    · rcases List.exists_cons_of_ne_nil hxs with ⟨y, ys, hy⟩
      have hlast : lastD (x :: xs) = lastD xs := by
        rw [hy, lastD_cons_cons]
      have hnxy : c.next_idxs x = y := by
        rw [hy] at h3
        exact chainNext_head h3
      have hform : xs ++ [x] = y :: (ys ++ [x]) := by rw [hy]; rfl
      rw [hform, QueueRep_cons, ← hform]
      refine ⟨?_, ?_, ?_⟩
      · rw [lastD_concat]
        simp [updf, hhead]
      · rw [lastD_concat]
        have hhy : headD (xs ++ [x]) = y := by rw [hy]; rfl
        rw [hhy, hnxy]
      · have hchxs : chainNext c.next_idxs xs := chainNext_tail h3
        refine chainNext_concat hxs hchxs ?_
        rw [← hlast, h2, headD_cons]
  · intro q' hq'
    simp [updf, hq']

theorem one_shiftLeft_eq (rq : Nat) : 1 <<< rq = 2 ^ rq := by
  rw [Nat.shiftLeft_eq, one_mul]

theorem bit_set_testBit (b rq p : Nat) :
    (b ||| (1 <<< rq)).testBit p = (b.testBit p || decide (rq = p)) := by
  rw [Nat.testBit_or, one_shiftLeft_eq, Nat.testBit_two_pow]

theorem bit_clear_testBit (b rq p : Nat) (hp : p < 64) :
    (b &&& usizeNot (1 <<< rq)).testBit p = (b.testBit p && !decide (rq = p)) := by
  rw [Nat.testBit_and, usizeNot, Nat.testBit_xor, one_shiftLeft_eq,
    Nat.testBit_two_pow, Nat.testBit_two_pow_sub_one]
  simp [hp]

theorem QueueRep_is_empty_nil {c : CList} {q : Nat} (hrep : QueueRep c q []) :
    c.is_empty q = true := by
  rw [CList.is_empty, QueueRep_nil.1 hrep]
  exact beq_self_eq_true _

theorem QueueRep_is_empty_ne_nil {c : CList} {q : Nat} {l : List Nat}
    (hrep : QueueRep c q l) (hb : ∀ m ∈ l, m < sentinel) (hne : l ≠ []) :
    c.is_empty q = false := by
  cases l with
  | nil => exact absurd rfl hne
  | cons x xs =>
    obtain ⟨h1, -, -⟩ := QueueRep_cons.1 hrep
    rw [CList.is_empty, h1]
    exact beq_eq_false_iff_ne.2 (Nat.ne_of_lt (hb _ (lastD_mem (by simp))))

/-- Global well-formedness of the single-core run queue: `ls` lists the exact
content of every circular queue, queues are duplicate-free and pairwise
disjoint, nodes outside every queue carry the sentinel link, queues at or
above `nQueues` are empty, and bit `p` of the bitcache is set exactly when
queue `p` is non-empty. -/
structure RQInv (nQueues : Nat) (s : RunQueue) (ls : Nat → List Nat) : Prop where
  rep : ∀ q, QueueRep s.queues q (ls q)
  nodup : ∀ q, (ls q).Nodup
  bounded : ∀ q, ∀ m ∈ ls q, m < sentinel
  disj : ∀ q q', q ≠ q' → ∀ m ∈ ls q, m ∉ ls q'
  fresh : ∀ m, (∀ q, m ∉ ls q) → s.queues.next_idxs m = sentinel
  hi : ∀ q, nQueues ≤ q → ls q = []
  bit : ∀ p, p < nQueues → s.bitcache.testBit p = !(s.queues.is_empty p)

theorem RQInv.not_mem_of_sentinel {nQueues : Nat} {s : RunQueue}
    {ls : Nat → List Nat} (hinv : RQInv nQueues s ls) {n : Nat}
    (hn : s.queues.next_idxs n = sentinel) (q : Nat) : n ∉ ls q :=
  QueueRep_fresh_not_mem (hinv.rep q) (hinv.bounded q) hn

theorem RQInv_add {nq nt : Nat} {s : RunQueue} {ls : Nat → List Nat} {n rq : Nat}
    (hinv : RQInv nq s ls) (hn : s.queues.next_idxs n = sentinel)
    {s' : RunQueue} {r : Option Nat}
    (h : RunQueue.add nq nt s n rq = some (s', r)) :
    RQInv nq s' (updf ls rq (ls rq ++ [n])) := by
  rw [RunQueue.add] at h
  split at h
  case isFalse => exact absurd h (by simp)
  case isTrue hbound =>
    by_cases hlt : n < sentinel
    case neg =>
      rw [CList.push, if_neg hlt] at h
      exact absurd h (by simp)
    case pos =>
      obtain ⟨c', hpush, hrep', htf, hnf⟩ :=
        CList.push_rep (hinv.rep rq) (hinv.nodup rq) (hinv.bounded rq) hn hlt
      rw [hpush] at h
      obtain ⟨hs', -⟩ := Prod.mk.injEq .. ▸ (Option.some.injEq .. ▸ h)
      subst hs'
      have hnotmem : ∀ q, n ∉ ls q := hinv.not_mem_of_sentinel hn
      refine ⟨?_, ?_, ?_, ?_, ?_, ?_, ?_⟩
      · intro q
        by_cases hq : q = rq
        · subst hq
          simpa [updf] using hrep'
        · rw [updf, if_neg hq]
          refine QueueRep_congr (hinv.rep q) (hinv.nodup q) (htf q hq) ?_
          intro m hm
          refine hnf m ?_
          intro hmem
          rcases List.mem_cons.1 hmem with hc | hc
          · exact hnotmem q (hc ▸ hm)
          · exact hinv.disj rq q (Ne.symm hq) m hc hm
      · intro q
        by_cases hq : q = rq
        · subst hq
          simp only [updf, if_pos rfl]
          rw [← List.concat_eq_append]
          exact (hinv.nodup q).concat (hnotmem q)
        · rw [updf, if_neg hq]; exact hinv.nodup q
      · intro q m hm
        by_cases hq : q = rq
        · subst hq
          rw [updf, if_pos rfl] at hm
          rcases List.mem_append.1 hm with hc | hc
          · exact hinv.bounded q m hc
          · simp only [List.mem_singleton] at hc
            exact hc ▸ hlt
        · rw [updf, if_neg hq] at hm
          exact hinv.bounded q m hm
      · intro q q' hqq' m hm hm'
        by_cases hq : q = rq
        · subst hq
          rw [updf, if_pos rfl] at hm
          rw [updf, if_neg (Ne.symm hqq')] at hm'
          rcases List.mem_append.1 hm with hc | hc
          · exact hinv.disj q q' hqq' m hc hm'
          · simp only [List.mem_singleton] at hc
            exact hnotmem q' (hc ▸ hm')
        · rw [updf, if_neg hq] at hm
          by_cases hq' : q' = rq
          · subst hq'
            rw [updf, if_pos rfl] at hm'
            rcases List.mem_append.1 hm' with hc | hc
            · exact hinv.disj q q' hqq' m hm hc
            · simp only [List.mem_singleton] at hc
              exact hnotmem q (hc ▸ hm)
          · rw [updf, if_neg hq'] at hm'
            exact hinv.disj q q' hqq' m hm hm'
      · intro m hm
        have hm1 : m ∉ n :: ls rq := by
          intro hc
          rcases List.mem_cons.1 hc with hc | hc
          · have := hm rq
            rw [updf, if_pos rfl] at this
            exact this (List.mem_append.2 (Or.inr (by simp [hc])))
          · have := hm rq
            rw [updf, if_pos rfl] at this
            exact this (List.mem_append.2 (Or.inl hc))
        rw [hnf m hm1]
        refine hinv.fresh m ?_
        intro q
        by_cases hq : q = rq
        · subst hq
          intro hc
          exact hm1 (List.mem_cons_of_mem _ hc)
        · have := hm q
          rwa [updf, if_neg hq] at this
      · intro q hq
        have hne : q ≠ rq := by
          intro hc
          subst hc
          exact absurd hbound.2 (Nat.not_lt.2 hq)
        rw [updf, if_neg hne]
        exact hinv.hi q hq
      · intro p hp
        show (s.bitcache ||| (1 <<< rq)).testBit p = !(c'.is_empty p)
        rw [bit_set_testBit]
        by_cases hpq : rq = p
        · have hbm : ∀ m ∈ ls rq ++ [n], m < sentinel := by
            intro m hm
            rcases List.mem_append.1 hm with hc | hc
            · exact hinv.bounded rq m hc
            · simp only [List.mem_singleton] at hc
              exact hc ▸ hlt
          have hemp : c'.is_empty p = false := by
            rw [← hpq]
            exact QueueRep_is_empty_ne_nil hrep' hbm (by simp)
          rw [hemp]
          simp [hpq]
        · have htail : c'.tail p = s.queues.tail p := htf p (fun hc => hpq hc.symm)
          rw [CList.is_empty, htail, ← CList.is_empty, hinv.bit p hp]
          simp [hpq]

theorem RQInv.congr_ls {nq : Nat} {s : RunQueue} {ls ls' : Nat → List Nat}
    (hinv : RQInv nq s ls) (h : ∀ q, ls' q = ls q) : RQInv nq s ls' := by
  refine ⟨fun q => h q ▸ hinv.rep q, fun q => h q ▸ hinv.nodup q,
    fun q => h q ▸ hinv.bounded q, ?_, ?_, fun q hq => h q ▸ hinv.hi q hq,
    hinv.bit⟩
  · intro q q' hqq' m hm
    rw [h q] at hm
    rw [h q']
    exact hinv.disj q q' hqq' m hm
  · intro m hm
    refine hinv.fresh m ?_
    intro q
    rw [← h q]
    exact hm q

theorem RQInv_pop_core {nq : Nat} {s : RunQueue} {ls : Nat → List Nat} {rq : Nat}
    (hinv : RQInv nq s ls) (hrq : rq < nq) (hnq : nq ≤ 64) :
    (s.queues.pop_head rq).1 = (ls rq).head? ∧
    RQInv nq
      { bitcache :=
          if (s.queues.pop_head rq).2.is_empty rq then
            s.bitcache &&& usizeNot (1 <<< rq)
          else s.bitcache,
        queues := (s.queues.pop_head rq).2 }
      (updf ls rq (ls rq).tail) := by
  have hp64 : rq < 64 := Nat.lt_of_lt_of_le hrq hnq
  rcases hls : ls rq with _ | ⟨x, xs⟩
  case nil =>
    have hrep0 := hinv.rep rq
    rw [hls] at hrep0
    have hpop := CList.pop_head_empty hrep0
    rw [hpop]
    refine ⟨rfl, ?_⟩
    have hemp : s.queues.is_empty rq = true := QueueRep_is_empty_nil hrep0
    rw [hemp, if_pos rfl]
    refine ⟨?_, ?_, ?_, ?_, ?_, ?_, ?_⟩
    · intro q
      by_cases hq : q = rq
      · subst hq
        rw [updf, if_pos rfl]
        exact hrep0
      · rw [updf, if_neg hq]
        exact hinv.rep q
    · intro q
      by_cases hq : q = rq
      · subst hq; rw [updf, if_pos rfl]; exact List.nodup_nil
      · rw [updf, if_neg hq]; exact hinv.nodup q
    · intro q m hm
      by_cases hq : q = rq
      · subst hq; rw [updf, if_pos rfl] at hm; simp at hm
      · rw [updf, if_neg hq] at hm; exact hinv.bounded q m hm
    · intro q q' hqq' m hm
      by_cases hq : q = rq
      · subst hq; rw [updf, if_pos rfl] at hm; simp at hm
      · rw [updf, if_neg hq] at hm
        by_cases hq' : q' = rq
        · subst hq'; rw [updf, if_pos rfl]; simp
        · rw [updf, if_neg hq']
          exact hinv.disj q q' hqq' m hm
    · intro m hm
      refine hinv.fresh m ?_
      intro q
      by_cases hq : q = rq
      · subst hq; rw [hls]; simp
      · have := hm q
        rwa [updf, if_neg hq] at this
    · intro q hq
      by_cases hqr : q = rq
      · subst hqr; rw [updf, if_pos rfl]; rfl
      · rw [updf, if_neg hqr]; exact hinv.hi q hq
    · intro p hp
      show (s.bitcache &&& usizeNot (1 <<< rq)).testBit p = _
      rw [bit_clear_testBit _ _ _ (Nat.lt_of_lt_of_le hp hnq)]
      by_cases hpq : rq = p
      · subst hpq
        rw [show (s.queues : CList) = s.queues from rfl, hemp]
        simp
      · rw [hinv.bit p hp]
        simp [hpq]
  case cons =>
    have hrep0 := hinv.rep rq
    have hnd0 := hinv.nodup rq
    have hb0 := hinv.bounded rq
    rw [hls] at hrep0 hnd0 hb0
    obtain ⟨c', hpop, hrep', hnx, htf, hnf⟩ :=
      CList.pop_head_rep hrep0 hnd0 hb0
    rw [hpop]
    refine ⟨rfl, ?_⟩
    have hxbounds : ∀ m ∈ xs, m < sentinel :=
      fun m hm => hb0 m (List.mem_cons_of_mem _ hm)
    have hxnotmem : x ∉ xs := (List.nodup_cons.1 hnd0).1
    refine ⟨?_, ?_, ?_, ?_, ?_, ?_, ?_⟩
    · intro q
      by_cases hq : q = rq
      · subst hq
        rw [updf, if_pos rfl]
        exact hrep'
      · rw [updf, if_neg hq]
        refine QueueRep_congr (hinv.rep q) (hinv.nodup q) (htf q hq) ?_
        intro m hm
        refine hnf m ?_
        rw [← hls]
        exact hinv.disj q rq hq m hm
    · intro q
      by_cases hq : q = rq
      · subst hq; rw [updf, if_pos rfl]
        exact (List.nodup_cons.1 hnd0).2
      · rw [updf, if_neg hq]; exact hinv.nodup q
    · intro q m hm
      by_cases hq : q = rq
      · subst hq; rw [updf, if_pos rfl] at hm
        exact hxbounds m hm
      · rw [updf, if_neg hq] at hm; exact hinv.bounded q m hm
    · intro q q' hqq' m hm
      by_cases hq : q = rq
      · subst hq
        rw [updf, if_pos rfl] at hm
        rw [updf, if_neg (Ne.symm hqq')]
        have : m ∈ ls q := by rw [hls]; exact List.mem_cons_of_mem _ hm
        exact hinv.disj q q' hqq' m this
      · rw [updf, if_neg hq] at hm
        by_cases hq' : q' = rq
        · subst hq'
          rw [updf, if_pos rfl]
          intro hc
          have : m ∈ ls q' := by rw [hls]; exact List.mem_cons_of_mem _ hc
          exact hinv.disj q q' hqq' m hm this
        · rw [updf, if_neg hq']
          exact hinv.disj q q' hqq' m hm
    · intro m hm
      have hmrq : m ∉ xs := by
        have := hm rq
        rwa [updf, if_pos rfl] at this
      by_cases hmx : m = x
      · subst hmx
        exact hnx
      · have hmnot : m ∉ x :: xs := by
          intro hc
          rcases List.mem_cons.1 hc with hc | hc
          · exact hmx hc
          · exact hmrq hc
        rw [hnf m hmnot]
        refine hinv.fresh m ?_
        intro q
        by_cases hq : q = rq
        · subst hq; rw [hls]; exact hmnot
        · have := hm q
          rwa [updf, if_neg hq] at this
    · intro q hq
      have hqr : q ≠ rq := by
        intro hc; subst hc
        have := hinv.hi q hq
        rw [hls] at this
        exact List.cons_ne_nil _ _ this
      rw [updf, if_neg hqr]
      exact hinv.hi q hq
    · intro p hp
      have hpb : p < 64 := Nat.lt_of_lt_of_le hp hnq
      by_cases hxs : xs = []
      · have hemp' : c'.is_empty rq = true := by
          refine QueueRep_is_empty_nil ?_
          rw [← hxs]
          exact hrep'
        rw [hemp', if_pos rfl]
        show (s.bitcache &&& usizeNot (1 <<< rq)).testBit p = !(c'.is_empty p)
        rw [bit_clear_testBit _ _ _ hpb]
        by_cases hpq : rq = p
        · subst hpq
          rw [hemp']
          simp
        · have htl : c'.tail p = s.queues.tail p := htf p (fun hc => hpq hc.symm)
          rw [CList.is_empty, htl, ← CList.is_empty, hinv.bit p hp]
          simp [hpq]
      · have hemp' : c'.is_empty rq = false :=
          QueueRep_is_empty_ne_nil hrep' hxbounds hxs
        rw [hemp', if_neg (by simp)]
        show s.bitcache.testBit p = !(c'.is_empty p)
        by_cases hpq : rq = p
        · subst hpq
          rw [hemp', hinv.bit _ hp]
          have : s.queues.is_empty rq = false := by
            refine QueueRep_is_empty_ne_nil hrep0 hb0 (by simp)
          rw [this]
        · have htl : c'.tail p = s.queues.tail p := htf p (fun hc => hpq hc.symm)
          rw [CList.is_empty, htl, ← CList.is_empty, hinv.bit p hp]

/-- Rotation of a queue content list: the head moves to the tail. -/
def rotateList (l : List Nat) : List Nat :=
  match l with
  | [] => []
  | x :: xs => xs ++ [x]

theorem RQInv_advance {nq : Nat} {s : RunQueue} {ls : Nat → List Nat}
    {n rq : Nat} {s' : RunQueue} {r : Option Nat}
    (hinv : RQInv nq s ls)
    (h : RunQueue.advance nq s n rq = some (s', r)) :
    RQInv nq s' (updf ls rq (rotateList (ls rq))) := by
  rw [RunQueue.advance] at h
  split at h
  case isFalse => exact absurd h (by simp)
  case isTrue hrq =>
    rcases hls : ls rq with _ | ⟨x, xs⟩
    case nil =>
      have hrep0 := hinv.rep rq
      rw [hls] at hrep0
      rw [CList.advance_empty hrep0] at h
      obtain ⟨hs', -⟩ := Prod.mk.injEq .. ▸ (Option.some.injEq .. ▸ h)
      subst hs'
      refine RQInv.congr_ls hinv ?_
      intro q
      by_cases hq : q = rq
      · subst hq
        rw [updf, if_pos rfl, hls]
        rfl
      · rw [updf, if_neg hq]
    case cons =>
      have hrep0 := hinv.rep rq
      have hnd0 := hinv.nodup rq
      have hb0 := hinv.bounded rq
      rw [hls] at hrep0 hnd0 hb0
      obtain ⟨c', hadv, hrep', hnn, htf⟩ := CList.advance_rep hrep0 hnd0 hb0
      rw [hadv] at h
      obtain ⟨hs', -⟩ := Prod.mk.injEq .. ▸ (Option.some.injEq .. ▸ h)
      subst hs'
      have hmemiff : ∀ m, m ∈ xs ++ [x] ↔ m ∈ x :: xs := by
        intro m
        simp [List.mem_append, or_comm]
      have hrot : rotateList (x :: xs) = xs ++ [x] := rfl
      refine ⟨?_, ?_, ?_, ?_, ?_, ?_, ?_⟩
      · intro q
        by_cases hq : q = rq
        · subst hq
          rw [updf, if_pos rfl, hrot]
          exact hrep'
        · rw [updf, if_neg hq]
          refine QueueRep_congr (hinv.rep q) (hinv.nodup q) (htf q hq) ?_
          intro m _
          rw [hnn]
      · intro q
        by_cases hq : q = rq
        · subst hq
          rw [updf, if_pos rfl, hrot]
          refine List.Perm.nodup ?_ hnd0
          exact (List.perm_append_singleton x xs).symm
        · rw [updf, if_neg hq]; exact hinv.nodup q
      · intro q m hm
        by_cases hq : q = rq
        · subst hq
          rw [updf, if_pos rfl, hrot] at hm
          exact hb0 m ((hmemiff m).1 hm)
        · rw [updf, if_neg hq] at hm; exact hinv.bounded q m hm
      · intro q q' hqq' m hm
        by_cases hq : q = rq
        · subst hq
          rw [updf, if_pos rfl, hrot] at hm
          rw [updf, if_neg (Ne.symm hqq')]
          have : m ∈ ls q := by rw [hls]; exact (hmemiff m).1 hm
          exact hinv.disj q q' hqq' m this
        · rw [updf, if_neg hq] at hm
          by_cases hq' : q' = rq
          · subst hq'
            rw [updf, if_pos rfl, hrot]
            intro hc
            have : m ∈ ls q' := by rw [hls]; exact (hmemiff m).1 hc
            exact hinv.disj q q' hqq' m hm this
          · rw [updf, if_neg hq']
            exact hinv.disj q q' hqq' m hm
      · intro m hm
        rw [hnn]
        refine hinv.fresh m ?_
        intro q
        by_cases hq : q = rq
        · subst hq
          rw [hls]
          intro hc
          have := hm q
          rw [updf, if_pos rfl, hrot] at this
          exact this ((hmemiff m).2 hc)
        · have := hm q
          rwa [updf, if_neg hq] at this
      · intro q hq
        have hqr : q ≠ rq := by
          intro hc; subst hc
          have := hinv.hi q hq
          rw [hls] at this
          exact List.cons_ne_nil _ _ this
        rw [updf, if_neg hqr]
        exact hinv.hi q hq
      · intro p hp
        show s.bitcache.testBit p = !(c'.is_empty p)
        by_cases hpq : p = rq
        · subst hpq
          rw [hinv.bit p hp, QueueRep_is_empty_ne_nil hrep0 hb0 (by simp),
            QueueRep_is_empty_ne_nil hrep'
              (fun m hm => hb0 m ((hmemiff m).1 hm)) (by simp)]
        · have hie : c'.is_empty p = s.queues.is_empty p := by
            rw [CList.is_empty, CList.is_empty, htf p hpq]
          rw [hinv.bit p hp, hie]

/-- Run-queue operation alphabet of claim C1: the single-core `GlobalRunqueue`
operations, each carrying the thread and queue argument of the call. -/
inductive RQOp where
  | add (n rq : Nat)
  | del (n rq : Nat)
  | advance (n rq : Nat)
  | pop_head (n rq : Nat)

/-- One run-queue call.  `add` is admitted only for a thread that is currently
in no queue (the claim's membership discipline, checked on the code state via
the sentinel); a panic of the underlying operation is `none`. -/
def execOp (nq nt : Nat) (s : RunQueue) : RQOp → Option RunQueue
  | .add n rq =>
    if s.queues.next_idxs n = sentinel then
      (RunQueue.add nq nt s n rq).map Prod.fst
    else none
  | .del n rq => (RunQueue.del nq nt s n rq).map Prod.fst
  | .advance n rq => (RunQueue.advance nq s n rq).map Prod.fst
  | .pop_head n rq => (RunQueue.pop_head nq s n rq).map Prod.snd

/-- A sequence of run-queue calls, stopping at the first panic. -/
def exec (nq nt : Nat) (s : RunQueue) : List RQOp → Option RunQueue
  | [] => some s
  | op :: ops =>
    match execOp nq nt s op with
    | none => none
    | some s' => exec nq nt s' ops

theorem execOp_inv {nq nt : Nat} {s s' : RunQueue} {ls : Nat → List Nat}
    {op : RQOp} (hinv : RQInv nq s ls) (hnq : nq ≤ 64)
    (h : execOp nq nt s op = some s') : ∃ ls', RQInv nq s' ls' := by
  cases op with
  | add n rq =>
    rw [execOp] at h
    split at h
    case isFalse => exact absurd h (by simp)
    case isTrue hfresh =>
      rcases hadd : RunQueue.add nq nt s n rq with _ | ⟨s₂, r⟩
      · rw [hadd] at h; exact absurd h (by simp)
      · rw [hadd] at h
        simp only [Option.map_some'] at h
        obtain rfl := Option.some.inj h
        exact ⟨_, RQInv_add hinv hfresh hadd⟩
  | del n rq =>
    rw [execOp, RunQueue.del] at h
    split at h
    case isFalse => exact absurd h (by simp)
    case isTrue hb =>
      rcases hpk : s.queues.pop_head rq with ⟨popped, q⟩
      simp only [hpk] at h
      split at h
      case isFalse => exact absurd h (by simp)
      case isTrue heq =>
        simp only [Option.map_some'] at h
        obtain rfl := Option.some.inj h
        have hcore := RQInv_pop_core hinv hb.2 hnq
        rw [hpk] at hcore
        exact ⟨_, hcore.2⟩
  | advance n rq =>
    rw [execOp] at h
    rcases hadv : RunQueue.advance nq s n rq with _ | ⟨s₂, r⟩
    · rw [hadv] at h; exact absurd h (by simp)
    · rw [hadv] at h
      simp only [Option.map_some'] at h
      obtain rfl := Option.some.inj h
      exact ⟨_, RQInv_advance hinv hadv⟩
  | pop_head n rq =>
    rw [execOp, RunQueue.pop_head] at h
    split at h
    case isFalse => exact absurd h (by simp)
    case isTrue hrq =>
      rcases hpk : s.queues.pop_head rq with ⟨popped, q⟩
      simp only [hpk] at h
      simp only [Option.map_some'] at h
      obtain rfl := Option.some.inj h
      have hcore := RQInv_pop_core hinv hrq hnq
      rw [hpk] at hcore
      exact ⟨_, hcore.2⟩

theorem exec_inv {nq nt : Nat} (hnq : nq ≤ 64) :
    ∀ (ops : List RQOp) (s s' : RunQueue), (∃ ls, RQInv nq s ls) →
      exec nq nt s ops = some s' → ∃ ls', RQInv nq s' ls' := by
  intro ops
  induction ops with
  | nil =>
    intro s s' hinv h
    rw [exec] at h
    obtain rfl := Option.some.inj h
    exact hinv
  | cons op ops ih =>
    intro s s' hinv h
    rw [exec] at h
    rcases hstep : execOp nq nt s op with _ | s₁
    · rw [hstep] at h; exact absurd h (by simp)
    · rw [hstep] at h
      obtain ⟨ls, hls⟩ := hinv
      exact ih s₁ s' (execOp_inv hls hnq hstep) h

theorem RQInv_new (nq : Nat) : RQInv nq RunQueue.new (fun _ => []) := by
  refine ⟨?_, ?_, ?_, ?_, ?_, ?_, ?_⟩
  · intro q; exact rfl
  · intro q; exact List.nodup_nil
  · intro q m hm; simp at hm
  · intro q q' _ m hm; simp at hm
  · intro m _; rfl
  · intro q _; rfl
  · intro p _
    rw [show RunQueue.new.bitcache = 0 from rfl, Nat.zero_testBit]
    rw [show RunQueue.new.queues.is_empty p = true from rfl]
    rfl

/-- C1: For every priority `p` in `0..N_QUEUES`, after any sequence of RunQueue
operations `add(n, p)`, `del(n, p)`, `advance(p)` and `pop_head(n, p)` in which
each thread is a member of at most one queue at a time (each `add` is issued
for a thread that is currently in no queue), bit `p` of the bitcache is set if
and only if the circular list for queue `p` is non-empty. -/
theorem runqueue_bitcache_invariant (nq nt : Nat) (hnq : nq ≤ 64)
    (ops : List RQOp) (s : RunQueue)
    (h : exec nq nt RunQueue.new ops = some s) (p : Nat) (hp : p < nq) :
    s.bitcache.testBit p = !(s.queues.is_empty p) := by
  obtain ⟨ls, hinv⟩ := exec_inv hnq ops RunQueue.new s ⟨_, RQInv_new nq⟩ h
  exact hinv.bit p hp

/-- A concrete run of run-queue operations exercising all four call kinds. -/
def rqTrace : List RQOp :=
  [.add 3 2, .add 4 2, .add 5 1, .del 3 2, .pop_head 4 2, .advance 5 1]

/-- The state reached by `rqTrace` from the fresh run queue. -/
def rqTraceState : RunQueue := (exec 4 8 RunQueue.new rqTrace).getD RunQueue.new

/-- Witness for C1 at a concrete operation sequence and priority. -/
theorem runqueue_bitcache_invariant_witness :
    rqTraceState.bitcache.testBit 2 = !(rqTraceState.queues.is_empty 2) :=
  runqueue_bitcache_invariant 4 8 (by decide) rqTrace rqTraceState rfl 2
    (by decide)

theorem CList.pop_head_fst (c : CList) (rq : Nat) :
    (c.pop_head rq).1 = c.peek_head rq := by
  simp only [CList.pop_head, CList.peek_head]
  split
  · rfl
  · split <;> rfl

/-- C10: the single-core `GlobalRunqueue::del(n, rq)` panics (returns `none`)
unless `n` is the head of queue `rq`; under the precondition that `del` is
called for the currently running thread, which on a single core is the head of
its priority's queue, the right-to-left direction shows the panic branch is
unreachable. -/
theorem del_some_iff_head (nq nt : Nat) (s : RunQueue) (n rq : Nat)
    (hn : n < nt) (hq : rq < nq) :
    (RunQueue.del nq nt s n rq).isSome = true ↔
      s.queues.peek_head rq = some n := by
  rw [RunQueue.del, if_pos ⟨hn, hq⟩]
  have hf := CList.pop_head_fst s.queues rq
  rcases hpk : s.queues.pop_head rq with ⟨popped, q⟩
  rw [hpk] at hf
  simp only [hpk]
  by_cases he : popped = some n
  · rw [if_pos he]
    simp [← hf, he]
  · rw [if_neg he]
    simp [← hf, he]

/-- A run-queue state whose queue 2 holds the single thread 3. -/
def rqOneThreadState : RunQueue :=
  (exec 4 8 RunQueue.new [.add 3 2]).getD RunQueue.new

/-- Witness for C10 at a concrete state: `del` of the head succeeds there. -/
theorem del_some_iff_head_witness :
    (RunQueue.del 4 8 rqOneThreadState 3 2).isSome = true ↔
      rqOneThreadState.queues.peek_head 2 = some 3 :=
  del_some_iff_head 4 8 rqOneThreadState 3 2 (by decide) (by decide)

/-- Repeated `CList::push` of the elements of `l` (left to right) into queue `q`. -/
def pushAll (c : CList) (q : Nat) : List Nat → Option CList
  | [] => some c
  | n :: rest =>
    match c.push n q with
    | none => none
    | some c' => pushAll c' q rest

/-- Repeated `CList::pop_head` on queue `q`, up to `fuel` calls, collecting the
returned elements until the first `none`. -/
def drain (c : CList) (q : Nat) : Nat → List Nat × CList
  | 0 => ([], c)
  | fuel + 1 =>
    match c.pop_head q with
    | (none, c') => ([], c')
    | (some x, c') =>
      let (rest, c'') := drain c' q fuel
      (x :: rest, c'')

/-- Single-queue invariant for claim C4: queue `q` holds exactly `l`, and every
node outside `l` is fresh (sentinel link). -/
def SInv (c : CList) (q : Nat) (l : List Nat) : Prop :=
  QueueRep c q l ∧ l.Nodup ∧ (∀ m ∈ l, m < sentinel) ∧
  (∀ m, m ∉ l → c.next_idxs m = sentinel)

theorem pushAll_SInv : ∀ {l : List Nat} {c : CList} {q : Nat} {acc : List Nat},
    SInv c q acc → l.Nodup → (∀ m ∈ l, m ∉ acc) → (∀ m ∈ l, m < sentinel) →
    ∃ c', pushAll c q l = some c' ∧ SInv c' q (acc ++ l) := by
  intro l
  induction l with
  | nil =>
    intro c q acc hs _ _ _
    exact ⟨c, rfl, by rwa [List.append_nil]⟩
  | cons n rest ih =>
    intro c q acc hs hnd hdis hb
    obtain ⟨hrep, hnd0, hb0, hfr⟩ := hs
    have hfreshn : c.next_idxs n = sentinel :=
      hfr n (hdis n (List.mem_cons_self _ _))
    obtain ⟨c₁, hpush, hrep₁, htf₁, hnf₁⟩ :=
      CList.push_rep hrep hnd0 hb0 hfreshn (hb n (List.mem_cons_self _ _))
    have hnotacc : n ∉ acc := hdis n (List.mem_cons_self _ _)
    have hs₁ : SInv c₁ q (acc ++ [n]) := by
      refine ⟨hrep₁, ?_, ?_, ?_⟩
      · rw [← List.concat_eq_append]
        exact hnd0.concat hnotacc
      · intro m hm
        rcases List.mem_append.1 hm with hc | hc
        · exact hb0 m hc
        · simp only [List.mem_singleton] at hc
          exact hc ▸ hb n (List.mem_cons_self _ _)
      · intro m hm
        have hmn : m ≠ n := fun hc => hm (List.mem_append.2 (Or.inr (by simp [hc])))
        have hma : m ∉ acc := fun hc => hm (List.mem_append.2 (Or.inl hc))
        rw [hnf₁ m (by simp [hmn, hma])]
        exact hfr m hma
    have hdis' : ∀ m ∈ rest, m ∉ acc ++ [n] := by
      intro m hm hc
      rcases List.mem_append.1 hc with hc | hc
      · exact hdis m (List.mem_cons_of_mem _ hm) hc
      · simp only [List.mem_singleton] at hc
        exact (List.nodup_cons.1 hnd).1 (hc ▸ hm)
    obtain ⟨c', hrest, hs'⟩ := ih hs₁ (List.Nodup.of_cons hnd) hdis'
      (fun m hm => hb m (List.mem_cons_of_mem _ hm))
    refine ⟨c', ?_, ?_⟩
    · rw [pushAll, hpush]
      exact hrest
    · rw [List.append_cons]
      exact hs'

theorem drain_succ (c : CList) (q fuel : Nat) :
    drain c q (fuel + 1) =
      match c.pop_head q with
      | (none, c') => ([], c')
      | (some x, c') =>
        let (rest, c'') := drain c' q fuel
        (x :: rest, c'') := rfl

theorem drain_SInv : ∀ {l : List Nat} {c : CList} {q : Nat},
    SInv c q l → ∃ c', drain c q (l.length + 1) = (l, c') ∧ QueueRep c' q [] := by
  intro l
  induction l with
  | nil =>
    intro c q hs
    obtain ⟨hrep, -, -, -⟩ := hs
    refine ⟨c, ?_, hrep⟩
    show drain c q 1 = ([], c)
    simp only [drain, CList.pop_head_empty hrep]
  | cons x xs ih =>
    intro c q hs
    obtain ⟨hrep, hnd0, hb0, hfr⟩ := hs
    obtain ⟨c₁, hpop, hrep₁, hnx, htf, hnf⟩ := CList.pop_head_rep hrep hnd0 hb0
    have hs₁ : SInv c₁ q xs := by
      refine ⟨hrep₁, (List.nodup_cons.1 hnd0).2,
        fun m hm => hb0 m (List.mem_cons_of_mem _ hm), ?_⟩
      intro m hm
      by_cases hmx : m = x
      · exact hmx ▸ hnx
      · have hmnot : m ∉ x :: xs := by
          intro hc
          rcases List.mem_cons.1 hc with hc | hc
          · exact hmx hc
          · exact hm hc
        rw [hnf m hmnot]
        exact hfr m hmnot
    obtain ⟨c', hdrain, hrep'⟩ := ih hs₁
    refine ⟨c', ?_, hrep'⟩
    show drain c q ((x :: xs).length + 1) = (x :: xs, c')
    have hlen : (x :: xs).length + 1 = xs.length + 1 + 1 := by simp
    rw [hlen, drain_succ, hpop]
    simp only [hdrain]

/-- C4: For every queue `q` of a CList and every sequence of distinct elements
inserted with `push(n, q)`, repeatedly calling `pop_head(q)` until it returns
`None` yields exactly the inserted elements in FIFO insertion order (first
pushed is popped first), leaving the queue empty. -/
theorem clist_push_pop_fifo (q : Nat) (l : List Nat) (hnd : l.Nodup)
    (hb : ∀ n ∈ l, n < sentinel) :
    ∃ c c', pushAll CList.new q l = some c ∧
      drain c q (l.length + 1) = (l, c') ∧ c'.is_empty q = true := by
  have hs0 : SInv CList.new q [] :=
    ⟨rfl, List.nodup_nil, by simp, fun m _ => rfl⟩
  obtain ⟨c, hpush, hsinv⟩ := pushAll_SInv hs0 hnd (by simp) hb
  rw [List.nil_append] at hsinv
  obtain ⟨c', hdrain, hrep⟩ := drain_SInv hsinv
  exact ⟨c, c', hpush, hdrain, QueueRep_is_empty_nil hrep⟩

/-- Witness for C4 at a concrete insertion sequence. -/
theorem clist_push_pop_fifo_witness :
    ∃ c c', pushAll CList.new 1 [3, 5, 4] = some c ∧
      drain c 1 4 = ([3, 5, 4], c') ∧ c'.is_empty 1 = true :=
  clist_push_pop_fifo 1 [3, 5, 4] (by decide) (by decide)

/-- Embedding of `WaitMode` (thread_flags.rs): flag wait modes with a `u16`
mask. -/
inductive WaitMode where
  | Any (mask : Nat)
  | All (mask : Nat)
  deriving DecidableEq

/-- Modelled from the spec (section 4.3) and the use sites in src/: the
`ThreadState` sum type of ariel-os-threads/riot-rs-threads; the defining file
`thread.rs` is not under src/.  Channel pointer payloads are embedded as
numeric addresses. -/
inductive ThreadState where
  | Invalid
  | Running
  | Parked
  | LockBlocked
  | FlagBlocked (mode : WaitMode)
  | ChannelRxBlocked (ptr : Nat)
  | ChannelTxBlocked (ptr : Nat)
  deriving DecidableEq

/-- `THREAD_COUNT` of ariel-os-threads (lib.rs line 98). -/
def THREAD_COUNT : Nat := 16

/-- `SCHED_PRIO_LEVELS` of ariel-os-threads (`= THREAD_COUNT`, lib.rs line 95). -/
def SCHED_PRIO_LEVELS : Nat := THREAD_COUNT

/-- Modelled from the spec: the single-core `RunQueue` of the
`ariel-os-runqueue` crate, which is not under src/ (only its callers in
`ariel-os-threads/src/lib.rs` are).  Per spec sections 4.1-4.2 it is a bitmap
plus per-priority FIFO queues; the queues are abstracted as head-first lists. -/
structure SpecRQ where
  bitcache : Nat
  queues : Nat → List Nat

/-- Modelled from the spec (section 4.1): membership of a node in some list
("push: no-op if n is already in some list"). -/
def SpecRQ.inSome (s : SpecRQ) (n : Nat) : Bool :=
  (List.range SCHED_PRIO_LEVELS).any (fun q => (s.queues q).contains n)

/-- Modelled from the spec (section 4.2): `add(n, p)` sets bit `p` and pushes;
per section 4.1 new elements arrive at the tail and a push of an element
already in some list is a no-op. -/
def SpecRQ.add (s : SpecRQ) (n rq : Nat) : SpecRQ :=
  { bitcache := s.bitcache ||| (1 <<< rq),
    queues :=
      if s.inSome n then s.queues
      else updf s.queues rq (s.queues rq ++ [n]) }

/-- Modelled from the spec (section 4.2): `del(n, p)` removes `n` via list-del
and clears bit `p` if the queue became empty. -/
def SpecRQ.del (s : SpecRQ) (n rq : Nat) : SpecRQ :=
  let qs := updf s.queues rq ((s.queues rq).erase n)
  { bitcache :=
      if qs rq = [] then s.bitcache &&& usizeNot (1 <<< rq) else s.bitcache,
    queues := qs }

/-- Modelled from the spec (section 4.2): `pop_head(n, p)` pops the head and
clears the bit if the queue became empty. -/
def SpecRQ.pop_head (s : SpecRQ) (_n rq : Nat) : SpecRQ :=
  let qs := updf s.queues rq (s.queues rq).tail
  { bitcache :=
      if qs rq = [] then s.bitcache &&& usizeNot (1 <<< rq) else s.bitcache,
    queues := qs }

/-- Embedding of the `Thread` TCB slice consumed by the embedded scheduler
operations: identifier, priority (`prio: RunqueueId`), state and flag word.
The saved stack pointer, register frame (`Cpu::setup_stack`) and optional
core-affinity are architecture/multi-core concerns outside this model. -/
structure Thread where
  tid : Nat
  priority : Nat
  state : ThreadState
  flags : Nat
  deriving DecidableEq

/-- Embedding of the `Scheduler` state slice of ariel-os-threads/src/lib.rs in
the single-core cfg: runqueue, TCB table (total function; the `THREAD_COUNT`
bound is carried by the operations), and the current thread. -/
structure Scheduler where
  runqueue : SpecRQ
  threads : Nat → Thread
  current_thread : Option Nat

/-- Embedding of `Scheduler::is_valid_tid` (lib.rs lines 260-266). -/
def Scheduler.is_valid_tid (s : Scheduler) (thread_id : Nat) : Bool :=
  if THREAD_COUNT ≤ thread_id then false
  else (s.threads thread_id).state != ThreadState.Invalid

/-- Embedding of `Scheduler::get_state` (lib.rs lines 299-305). -/
def Scheduler.get_state (s : Scheduler) (thread_id : Nat) : Option ThreadState :=
  if s.is_valid_tid thread_id then some (s.threads thread_id).state else none

/-- Embedding of `Scheduler::get_unused` (lib.rs lines 250-257): the first TCB
slot in `Invalid` state, scanning indices `0..THREAD_COUNT` in order. -/
def Scheduler.get_unused (s : Scheduler) : Option Nat :=
  (List.range THREAD_COUNT).find?
    (fun i => (s.threads i).state == ThreadState.Invalid)

/-- Embedding of `Scheduler::create` (lib.rs lines 206-225): allocate the
first free slot and initialize its TCB (the stack set-up by `Cpu::setup_stack`
is architecture-external).  Returns the allocated id, or `none` with the state
untouched when the table is full. -/
def Scheduler.create (s : Scheduler) (_func _arg priority : Nat) :
    Option Nat × Scheduler :=
  match s.get_unused with
  | none => (none, s)
  | some tid =>
    (some tid,
      { s with
          threads := updf s.threads tid
            { tid := tid, priority := priority,
              state := ThreadState.Parked, flags := (s.threads tid).flags } })

/-- Embedding of `Scheduler::set_state` (lib.rs lines 276-296), single-core
path: store the new state, then adjust the runqueue (`add` on transitions into
`Running`, `pop_head` on transitions out of it).  The returned `CoreId`
reschedule hint feeds the external `schedule` machinery and is not modelled. -/
def Scheduler.set_state (s : Scheduler) (tid : Nat) (st : ThreadState) :
    Scheduler × ThreadState :=
  let thread := s.threads tid
  let old_state := thread.state
  let thr' := { thread with state := st }
  let s' := { s with threads := updf s.threads tid thr' }
  if old_state = st then (s', old_state)
  else if st = ThreadState.Running then
    ({ s' with runqueue := s'.runqueue.add thr'.tid thr'.priority }, old_state)
  else if old_state = ThreadState.Running then
    ({ s' with runqueue := s'.runqueue.pop_head thr'.tid thr'.priority },
      old_state)
  else (s', old_state)

/-- Embedding of `Scheduler::set_priority` (lib.rs lines 319-336): no-op for
invalid ids or an unchanged priority; updates the priority field, and for a
`Running` thread reseats it in the runqueue with `del` then `add`.  The
returned `CoreId` hint is not modelled. -/
def Scheduler.set_priority (s : Scheduler) (thread_id new_priority : Nat) :
    Scheduler :=
  if ¬ s.is_valid_tid thread_id then s
  else
    let thread := s.threads thread_id
    let old_priority := thread.priority
    if old_priority = new_priority then s
    else
      let s' := { s with
        threads := updf s.threads thread_id
          { thread with priority := new_priority } }
      if thread.state ≠ ThreadState.Running then s'
      else
        { s' with runqueue :=
            (s'.runqueue.del thread_id old_priority).add thread_id new_priority }

/-- Embedding of `unpark` (lib.rs lines 540-551): returns `false` unless the
thread is `Parked`, otherwise transitions it to `Running`.  The
`schedule_on_core` call driven by the returned `CoreId` is external. -/
def Scheduler.unpark (s : Scheduler) (thread_id : Nat) : Bool × Scheduler :=
  match s.get_state thread_id with
  | some ThreadState.Parked =>
    (true, (s.set_state thread_id ThreadState.Running).1)
  | _ => (false, s)

/-- Embedding of `create_raw` (lib.rs lines 450-464): `create` with a panic
(`expect`) when the table is full, then `set_state(_, Running)`. -/
def create_raw (s : Scheduler) (func arg priority : Nat) :
    Option (Nat × Scheduler) :=
  match s.create func arg priority with
  | (none, _) => none
  | (some tid, s') => some (tid, (s'.set_state tid ThreadState.Running).1)

/-- C7: whenever every TCB slot is in a non-Invalid state, the next thread
creation finds no free slot (`get_unused` is `none`), `create` reports the
failure and leaves the TCB table unchanged, and `create_raw` hits the
`OutOfThreads` panic (`expect`). -/
theorem create_out_of_threads (s : Scheduler) (func arg priority : Nat)
    (hfull : ∀ i, i < THREAD_COUNT → (s.threads i).state ≠ ThreadState.Invalid) :
    s.get_unused = none ∧ s.create func arg priority = (none, s) ∧
      create_raw s func arg priority = none := by
  have hunused : s.get_unused = none := by
    rw [Scheduler.get_unused]
    rw [List.find?_eq_none]
    intro i hi
    rw [List.mem_range] at hi
    simpa using hfull i hi
  refine ⟨hunused, ?_, ?_⟩
  · rw [Scheduler.create, hunused]
  · rw [create_raw, Scheduler.create, hunused]

/-- A scheduler state whose TCB table is entirely occupied by running threads. -/
def fullScheduler : Scheduler :=
  { runqueue := { bitcache := 0, queues := fun _ => [] },
    threads := fun i =>
      { tid := i, priority := 1, state := ThreadState.Running, flags := 0 },
    current_thread := some 0 }

/-- Witness for C7 on a concrete full TCB table. -/
theorem create_out_of_threads_witness :
    fullScheduler.get_unused = none ∧
      fullScheduler.create 0 0 1 = (none, fullScheduler) ∧
      create_raw fullScheduler 0 0 1 = none :=
  create_out_of_threads fullScheduler 0 0 1 (fun i _ => by simp [fullScheduler])

/-- C8: `unpark(t)` returns `true` if and only if `t` referred to a thread in
state `Parked` at the time of the call; when it returns `false` (out of range,
`Invalid`, or any other state) the scheduler state is unchanged. -/
theorem unpark_true_iff_parked (s : Scheduler) (t : Nat) :
    ((s.unpark t).1 = true ↔
      (t < THREAD_COUNT ∧ (s.threads t).state = ThreadState.Parked)) ∧
    ((s.unpark t).1 = false → (s.unpark t).2 = s) := by
  have hgs : s.get_state t = some ThreadState.Parked ↔
      (t < THREAD_COUNT ∧ (s.threads t).state = ThreadState.Parked) := by
    rw [Scheduler.get_state, Scheduler.is_valid_tid]
    by_cases ht : THREAD_COUNT ≤ t
    · simp [ht, Nat.not_lt.2 ht]
    · cases hst : (s.threads t).state <;>
        simp [ht, hst, Nat.lt_of_not_le ht]
  rcases hg : s.get_state t with _ | st
  · rw [Scheduler.unpark, hg]
    rw [hg] at hgs
    exact ⟨⟨fun h => absurd h (by simp), fun h => absurd (hgs.2 h) (by simp)⟩,
      fun _ => rfl⟩
  · rw [hg] at hgs
    cases st with
    | Parked =>
      rw [Scheduler.unpark, hg]
      exact ⟨by simpa using hgs, by intro h; exact absurd h (by simp)⟩
    | Invalid =>
      rw [Scheduler.unpark, hg]
      exact ⟨⟨fun h => absurd h (by simp), fun h => absurd (hgs.2 h) (by simp)⟩,
        fun _ => rfl⟩
    | Running =>
      rw [Scheduler.unpark, hg]
      exact ⟨⟨fun h => absurd h (by simp), fun h => absurd (hgs.2 h) (by simp)⟩,
        fun _ => rfl⟩
    | LockBlocked =>
      rw [Scheduler.unpark, hg]
      exact ⟨⟨fun h => absurd h (by simp), fun h => absurd (hgs.2 h) (by simp)⟩,
        fun _ => rfl⟩
    | FlagBlocked mode =>
      rw [Scheduler.unpark, hg]
      exact ⟨⟨fun h => absurd h (by simp), fun h => absurd (hgs.2 h) (by simp)⟩,
        fun _ => rfl⟩
    | ChannelRxBlocked ptr =>
      rw [Scheduler.unpark, hg]
      exact ⟨⟨fun h => absurd h (by simp), fun h => absurd (hgs.2 h) (by simp)⟩,
        fun _ => rfl⟩
    | ChannelTxBlocked ptr =>
      rw [Scheduler.unpark, hg]
      exact ⟨⟨fun h => absurd h (by simp), fun h => absurd (hgs.2 h) (by simp)⟩,
        fun _ => rfl⟩

/-- A scheduler state with thread 2 parked. -/
def parkedScheduler : Scheduler :=
  { runqueue := { bitcache := 0, queues := fun _ => [] },
    threads := fun i =>
      { tid := i, priority := 1,
        state := if i = 2 then ThreadState.Parked else ThreadState.Invalid,
        flags := 0 },
    current_thread := none }

/-- Witness for C8 at concrete states: both the `true` case and the
unchanged-state `false` case. -/
theorem unpark_true_iff_parked_witness :
    ((parkedScheduler.unpark 2).1 = true ↔
      (2 < THREAD_COUNT ∧
        (parkedScheduler.threads 2).state = ThreadState.Parked)) ∧
    ((parkedScheduler.unpark 3).1 = false → (parkedScheduler.unpark 3).2 =
      parkedScheduler) :=
  ⟨(unpark_true_iff_parked parkedScheduler 2).1,
   (unpark_true_iff_parked parkedScheduler 3).2⟩

theorem updf_same {α : Type} (f : Nat → α) (i : Nat) (v : α) : updf f i v i = v := by
  simp [updf]

theorem updf_ne {α : Type} (f : Nat → α) {i j : Nat} (v : α) (h : j ≠ i) :
    updf f i v j = f j := by
  simp [updf, h]

theorem updf_updf {α : Type} (f : Nat → α) (i : Nat) (a b : α) :
    updf (updf f i a) i b = updf f i b := by
  funext j
  by_cases h : j = i <;> simp [updf, h]

theorem updf_self {α : Type} (f : Nat → α) (i : Nat) : updf f i (f i) = f := by
  funext j
  by_cases h : j = i <;> simp [updf, h]

theorem lor_two_pow_of_testBit {b p : Nat} (h : b.testBit p = true) :
    b ||| (1 <<< p) = b := by
  refine Nat.eq_of_testBit_eq ?_
  intro i
  rw [bit_set_testBit]
  by_cases hip : p = i
  · subst hip; simp [h]
  · simp [hip]

theorem lor_land_usizeNot {b p : Nat} (hb : b < 2 ^ 64) (hp : p < 64)
    (h : b.testBit p = false) :
    (b ||| (1 <<< p)) &&& usizeNot (1 <<< p) = b := by
  refine Nat.eq_of_testBit_eq ?_
  intro i
  by_cases hi : i < 64
  · rw [bit_clear_testBit _ _ _ hi, bit_set_testBit]
    by_cases hip : p = i
    · subst hip; simp [h]
    · simp [hip]
  · have hbi : b.testBit i = false :=
      Nat.testBit_lt_two_pow
        (Nat.lt_of_lt_of_le hb (Nat.pow_le_pow_right (by decide) (Nat.not_lt.1 hi)))
    have hpi : ¬ (p = i) := by omega
    rw [Nat.testBit_and, usizeNot, Nat.testBit_xor, one_shiftLeft_eq,
      Nat.testBit_two_pow, Nat.testBit_two_pow_sub_one, Nat.testBit_or,
      Nat.testBit_two_pow, hbi]
    simp [hi, hpi]

/-- Well-formedness of the embedded ariel scheduler state: queue membership is
exactly determined by the TCB table (a `Running` thread sits in the queue of
its priority and nowhere else), queues are duplicate-free, priorities of valid
threads are in range, and the bitmap tracks queue non-emptiness. -/
structure SchedWF (s : Scheduler) : Prop where
  mem_iff : ∀ p n, n ∈ s.runqueue.queues p ↔
    (n < THREAD_COUNT ∧ (s.threads n).state = ThreadState.Running ∧
     (s.threads n).priority = p)
  nodup : ∀ p, (s.runqueue.queues p).Nodup
  prioInRange : ∀ n, n < THREAD_COUNT →
    (s.threads n).priority < SCHED_PRIO_LEVELS
  bitLt : s.runqueue.bitcache < 2 ^ 64
  bit : ∀ p, p < SCHED_PRIO_LEVELS →
    (s.runqueue.bitcache.testBit p = true ↔ s.runqueue.queues p ≠ [])

theorem SpecRQ_add_del_cancel {R : SpecRQ} {t p : Nat}
    (hnotin : ∀ q, t ∉ R.queues q)
    (hbit : R.bitcache.testBit p = true ↔ R.queues p ≠ [])
    (hblt : R.bitcache < 2 ^ 64) (hp : p < 64) :
    (R.add t p).del t p = R := by
  have hins : R.inSome t = false := by
    rw [SpecRQ.inSome, List.any_eq_false]
    intro q _
    simpa using hnotin q
  have hq1 : (R.queues p ++ [t]).erase t = R.queues p := by
    rw [List.erase_append_right _ (hnotin p), List.erase_cons_head,
      List.append_nil]
  rw [SpecRQ.add, hins]
  simp only [Bool.false_eq_true, if_false]
  rw [SpecRQ.del]
  simp only [updf_same, updf_updf, hq1, updf_self]
  by_cases hprq : R.queues p = []
  · rw [if_pos hprq]
    have hbf : R.bitcache.testBit p = false := by
      cases htb : R.bitcache.testBit p
      · rfl
      · exact absurd (hbit.1 htb) (not_not_intro hprq)
    rw [lor_land_usizeNot hblt hp hbf]
  · rw [if_neg hprq, lor_two_pow_of_testBit (hbit.2 hprq)]

theorem SpecRQ_del_facts {s : Scheduler} (hwf : SchedWF s) {t : Nat} :
    (∀ q, t ∉ (s.runqueue.del t (s.threads t).priority).queues q) ∧
    (∀ p, p ≠ (s.threads t).priority →
      (s.runqueue.del t (s.threads t).priority).queues p = s.runqueue.queues p) ∧
    (∀ p, p < SCHED_PRIO_LEVELS → p ≠ (s.threads t).priority →
      ((s.runqueue.del t (s.threads t).priority).bitcache.testBit p = true ↔
        (s.runqueue.del t (s.threads t).priority).queues p ≠ [])) ∧
    (s.runqueue.del t (s.threads t).priority).bitcache < 2 ^ 64 := by
  set pr := (s.threads t).priority with hpr
  have hqueues : ∀ p, p ≠ pr →
      (s.runqueue.del t pr).queues p = s.runqueue.queues p := by
    intro p hppr
    rw [SpecRQ.del]
    exact updf_ne _ _ hppr
  have hnotin : ∀ q, t ∉ (s.runqueue.del t pr).queues q := by
    intro q
    by_cases hq : q = pr
    · subst hq
      rw [SpecRQ.del]
      simp only [updf_same]
      exact (hwf.nodup pr).not_mem_erase
    · rw [hqueues q hq]
      intro hc
      exact hq ((hwf.mem_iff q t).1 hc).2.2.symm
  have hblt : (s.runqueue.del t pr).bitcache < 2 ^ 64 := by
    rw [SpecRQ.del]
    simp only []
    split
    · exact Nat.lt_of_le_of_lt (Nat.and_le_left) hwf.bitLt
    · exact hwf.bitLt
  refine ⟨hnotin, hqueues, ?_, hblt⟩
  intro p hp hppr
  have hp64 : p < 64 := by
    have : SCHED_PRIO_LEVELS = 16 := rfl
    omega
  rw [hqueues p hppr, SpecRQ.del]
  simp only []
  split
  · rw [bit_clear_testBit _ _ _ hp64]
    have : ¬ (pr = p) := fun hc => hppr hc.symm
    simp only [this, decide_False, Bool.not_false, Bool.and_true]
    exact hwf.bit p hp
  · exact hwf.bit p hp

theorem set_priority_invalid {s : Scheduler} {t pr : Nat}
    (h : ¬ s.is_valid_tid t = true) : s.set_priority t pr = s := by
  rw [Scheduler.set_priority, if_pos h]

theorem set_priority_same {s : Scheduler} {t pr : Nat}
    (hv : s.is_valid_tid t = true) (h : (s.threads t).priority = pr) :
    s.set_priority t pr = s := by
  simp [Scheduler.set_priority, hv, h]

theorem set_priority_not_running {s : Scheduler} {t pr : Nat}
    (hv : s.is_valid_tid t = true) (hne : ¬ (s.threads t).priority = pr)
    (hst : ¬ (s.threads t).state = ThreadState.Running) :
    s.set_priority t pr =
      { s with
        threads := updf s.threads t ({ s.threads t with priority := pr }) } := by
  simp [Scheduler.set_priority, hv, hne, hst]

theorem set_priority_running {s : Scheduler} {t pr : Nat}
    (hv : s.is_valid_tid t = true) (hne : ¬ (s.threads t).priority = pr)
    (hst : (s.threads t).state = ThreadState.Running) :
    s.set_priority t pr =
      { s with
          threads := updf s.threads t ({ s.threads t with priority := pr }),
          runqueue :=
            (s.runqueue.del t (s.threads t).priority).add t pr } := by
  simp [Scheduler.set_priority, hv, hne, hst]

/-- C3 (amended): for a well-formed scheduler state and an in-range `p`,
executing `set_priority(t, p)` immediately followed by `set_priority(t, q)`
leaves the scheduler (runqueue included) in exactly the state of the single
call `set_priority(t, q)`, provided `q` differs from `t`'s initial priority or
`p` equals it.  When `q` equals the initial priority and `p` does not, the
pair can reorder `t` within its priority queue (see the counterexample). -/
theorem set_priority_pair_eq_single (s : Scheduler) (t p q : Nat)
    (hwf : SchedWF s) (hp : p < SCHED_PRIO_LEVELS)
    (hcond : q ≠ (s.threads t).priority ∨ p = (s.threads t).priority) :
    (s.set_priority t p).set_priority t q = s.set_priority t q := by
  by_cases hv : s.is_valid_tid t = true
  case neg =>
    rw [set_priority_invalid hv]
  case pos =>
    by_cases hpp : (s.threads t).priority = p
    · rw [set_priority_same hv hpp]
    · have hqpr : q ≠ (s.threads t).priority := by
        rcases hcond with h | h
        · exact h
        · exact absurd h.symm hpp
      by_cases hrun : (s.threads t).state = ThreadState.Running
      case pos =>
        by_cases hqp : q = p
        · subst hqp
          rw [set_priority_running hv hpp hrun]
          refine set_priority_same ?_ ?_
          · show (if THREAD_COUNT ≤ t then false
              else (updf s.threads t ({ s.threads t with priority := q }) t).state
                != ThreadState.Invalid) = true
            rw [updf_same]
            rw [Scheduler.is_valid_tid] at hv
            exact hv
          · show (updf s.threads t ({ s.threads t with priority := q }) t).priority
              = q
            rw [updf_same]
        · obtain ⟨hnotin, hqueues, hbitf, hblt⟩ := SpecRQ_del_facts hwf (t := t)
          have hp64 : p < 64 := by
            have h16 : SCHED_PRIO_LEVELS = 16 := rfl
            omega
          have hcancel :=
            SpecRQ_add_del_cancel (R := s.runqueue.del t (s.threads t).priority)
              (t := t) (p := p) hnotin (hbitf p hp (fun hc => hpp hc.symm)) hblt
              hp64
          rw [set_priority_running hv hpp hrun]
          refine Eq.trans (set_priority_running ?_ ?_ ?_) ?_
          · show (if THREAD_COUNT ≤ t then false
              else (updf s.threads t ({ s.threads t with priority := p }) t).state
                != ThreadState.Invalid) = true
            rw [updf_same]
            rw [Scheduler.is_valid_tid] at hv
            exact hv
          · show ¬ (updf s.threads t ({ s.threads t with priority := p }) t).priority
              = q
            rw [updf_same]
            exact fun hc => hqp hc.symm
          · show (updf s.threads t ({ s.threads t with priority := p }) t).state
              = ThreadState.Running
            rw [updf_same]
            exact hrun
          · rw [set_priority_running hv (fun hc => hqpr hc.symm) hrun]
            simp only [updf_same, updf_updf, hcancel]
      case neg =>
        by_cases hqp : q = p
        · subst hqp
          rw [set_priority_not_running hv hpp hrun]
          refine set_priority_same ?_ ?_
          · show (if THREAD_COUNT ≤ t then false
              else (updf s.threads t ({ s.threads t with priority := q }) t).state
                != ThreadState.Invalid) = true
            rw [updf_same]
            rw [Scheduler.is_valid_tid] at hv
            exact hv
          · show (updf s.threads t ({ s.threads t with priority := q }) t).priority
              = q
            rw [updf_same]
        · rw [set_priority_not_running hv hpp hrun]
          refine Eq.trans (set_priority_not_running ?_ ?_ ?_) ?_
          · show (if THREAD_COUNT ≤ t then false
              else (updf s.threads t ({ s.threads t with priority := p }) t).state
                != ThreadState.Invalid) = true
            rw [updf_same]
            rw [Scheduler.is_valid_tid] at hv
            exact hv
          · show ¬ (updf s.threads t ({ s.threads t with priority := p }) t).priority
              = q
            rw [updf_same]
            exact fun hc => hqp hc.symm
          · show ¬ (updf s.threads t ({ s.threads t with priority := p }) t).state
              = ThreadState.Running
            rw [updf_same]
            exact hrun
          · rw [set_priority_not_running hv (fun hc => hqpr hc.symm) hrun]
            simp only [updf_same, updf_updf]

/-- A reachable scheduler state: threads 0 and 1 run at priority 5 and queue 5
holds them in FIFO order `[0, 1]`; all other slots are free. -/
def prioCexSched : Scheduler :=
  { runqueue := { bitcache := 32, queues := fun i => if i = 5 then [0, 1] else [] },
    threads := fun i =>
      { tid := i, priority := 5,
        state := if i < 2 then ThreadState.Running else ThreadState.Invalid,
        flags := 0 },
    current_thread := some 0 }

/-- Counterexample to C3 as stated: from `prioCexSched`,
`set_priority(0, 6); set_priority(0, 5)` leaves queue 5 as `[1, 0]`, while the
single `set_priority(0, 5)` leaves it `[0, 1]` — the two runqueue states
disagree on the FIFO order of priority 5, so they are not equivalent. -/
theorem set_priority_pair_counterexample :
    ((prioCexSched.set_priority 0 6).set_priority 0 5).runqueue.queues 5
        = [1, 0] ∧
    (prioCexSched.set_priority 0 5).runqueue.queues 5 = [0, 1] ∧
    ((prioCexSched.set_priority 0 6).set_priority 0 5).runqueue.queues 5 ≠
      (prioCexSched.set_priority 0 5).runqueue.queues 5 := by
  have h1 : ((prioCexSched.set_priority 0 6).set_priority 0 5).runqueue.queues 5
      = [1, 0] := rfl
  have h2 : (prioCexSched.set_priority 0 5).runqueue.queues 5 = [0, 1] := rfl
  refine ⟨h1, h2, ?_⟩
  rw [h1, h2]
  decide

theorem prioCexSched_wf : SchedWF prioCexSched := by
  refine ⟨?_, ?_, ?_, ?_, ?_⟩
  · intro p n
    have h16 : THREAD_COUNT = 16 := rfl
    show n ∈ (if p = 5 then [0, 1] else ([] : List Nat)) ↔
      (n < THREAD_COUNT ∧
        (if n < 2 then ThreadState.Running else ThreadState.Invalid)
          = ThreadState.Running ∧ (5 : Nat) = p)
    rw [h16]
    by_cases hp : p = 5
    · rw [if_pos hp]
      by_cases hn : n < 2
      · rw [if_pos hn]
        simp only [List.mem_cons, List.mem_singleton, List.not_mem_nil,
          or_false]
        constructor
        · intro _
          exact ⟨by omega, by trivial, hp.symm⟩
        · intro _
          omega
      · rw [if_neg hn]
        simp only [List.mem_cons, List.mem_singleton, List.not_mem_nil,
          or_false]
        constructor
        · intro h
          rcases h with rfl | rfl
          · exact absurd (by decide) hn
          · exact absurd (by decide) hn
        · rintro ⟨-, hcon, -⟩
          exact absurd hcon (by decide)
    · rw [if_neg hp]
      simp only [List.not_mem_nil, false_iff]
      rintro ⟨-, -, hq⟩
      exact hp hq.symm
  · intro p
    show (if p = 5 then [0, 1] else ([] : List Nat)).Nodup
    by_cases hp : p = 5
    · rw [if_pos hp]
      decide
    · rw [if_neg hp]
      exact List.nodup_nil
  · intro n _
    show (5 : Nat) < SCHED_PRIO_LEVELS
    decide
  · show (32 : Nat) < 2 ^ 64
    decide
  · intro p _
    by_cases hp5 : p = 5
    · subst hp5
      show (32 : Nat).testBit 5 = true ↔ ([0, 1] : List Nat) ≠ []
      decide
    · show (32 : Nat).testBit p = true ↔
        (if p = 5 then [0, 1] else ([] : List Nat)) ≠ []
      rw [if_neg hp5, show (32 : Nat) = 2 ^ 5 from rfl, Nat.testBit_two_pow]
      simp [Ne.symm hp5]

/-- Witness for the amended C3 at a concrete state and priorities. -/
theorem set_priority_pair_eq_single_witness :
    (prioCexSched.set_priority 0 6).set_priority 0 3 =
      prioCexSched.set_priority 0 3 :=
  set_priority_pair_eq_single prioCexSched 0 6 3 prioCexSched_wf (by decide)
    (Or.inl (by decide))

/-- Bitwise complement of a Rust `u16` (`!x` for `x < 2^16`). -/
def u16Not (x : Nat) : Nat := 65535 - x

/-- Result of one non-looping `flag_wait` call on the current thread: the
returned bits, the updated flag word, and the blocking request (if any). -/
structure FlagWaitResult where
  ret : Option Nat
  flags : Nat
  blocked : Option WaitMode
  deriving DecidableEq

/-- Embedding of `Threads::flag_wait` (thread_flags.rs lines 117-135), acting
on the current thread's `u16` flag word: if `cond` yields bits, they are
cleared from the word and returned; otherwise the thread is marked
`FlagBlocked mode` (the runqueue bookkeeping of `set_state` is external). -/
def Threads.flag_wait (cond : Nat → Option Nat) (mode : WaitMode)
    (flags : Nat) : FlagWaitResult :=
  match cond flags with
  | some res =>
    { ret := some res, flags := flags &&& u16Not res, blocked := none }
  | none => { ret := none, flags := flags, blocked := some mode }

/-- Embedding of `Threads::flag_wait_one` (thread_flags.rs lines 157-165): the
condition keeps `res & (!res + 1)` — the lowest set bit of `flags & mask`. -/
def Threads.flag_wait_one (mask flags : Nat) : FlagWaitResult :=
  Threads.flag_wait
    (fun thread_flags =>
      let res := thread_flags &&& mask
      if res ≠ 0 then some (res &&& (u16Not res + 1)) else none)
    (WaitMode.Any mask) flags

/-- The lowest set bit of a number, as a power of two (0 for 0). -/
def lowBit (x : Nat) : Nat :=
  if _h : x = 0 then 0
  else if x % 2 = 1 then 1
  else 2 * lowBit (x / 2)
termination_by x
decreasing_by exact Nat.div_lt_self (Nat.pos_of_ne_zero _h) (by omega)

theorem testBit_two_pow_sub_one_sub :
    ∀ (t : Nat) {x : Nat}, x < 2 ^ t → ∀ i,
      (2 ^ t - 1 - x).testBit i = (decide (i < t) && !(x.testBit i)) := by
  intro t
  induction t with
  | zero =>
    intro x hx i
    interval_cases x
    simp [Nat.zero_testBit]
  | succ t ih =>
    intro x hx i
    have h2 : 2 ^ (t + 1) = 2 * 2 ^ t := by
      rw [Nat.pow_succ, Nat.mul_comm]
    have hP : 1 ≤ 2 ^ t := Nat.one_le_two_pow
    cases i with
    | zero =>
      rw [Nat.testBit_zero, Nat.testBit_zero]
      rcases Nat.mod_two_eq_zero_or_one x with hx2 | hx2
      · have hm : (2 ^ (t + 1) - 1 - x) % 2 = 1 := by omega
        simp [hm, hx2]
      · have hm : (2 ^ (t + 1) - 1 - x) % 2 = 0 := by omega
        simp [hm, hx2]
    | succ i =>
      rw [Nat.testBit_add_one, Nat.testBit_add_one]
      have hdiv : (2 ^ (t + 1) - 1 - x) / 2 = 2 ^ t - 1 - x / 2 := by omega
      have hxlt : x / 2 < 2 ^ t := by omega
      rw [hdiv, ih hxlt i]
      simp [Nat.succ_lt_succ_iff]

theorem two_mul_land (a b : Nat) : (2 * a) &&& (2 * b) = 2 * (a &&& b) := by
  refine Nat.eq_of_testBit_eq fun i => ?_
  cases i with
  | zero =>
    rw [Nat.testBit_and, Nat.testBit_zero, Nat.testBit_zero,
      Nat.mul_mod_right, Nat.mul_mod_right]
    simp
  | succ i =>
    rw [Nat.testBit_and, Nat.testBit_add_one, Nat.testBit_add_one,
      Nat.testBit_add_one]
    rw [Nat.mul_div_cancel_left a (by omega), Nat.mul_div_cancel_left b (by omega),
      Nat.mul_div_cancel_left (a &&& b) (by omega), Nat.testBit_and]

theorem lowBit_odd {x : Nat} (h0 : x ≠ 0) (h1 : x % 2 = 1) : lowBit x = 1 := by
  rw [lowBit]
  simp [h0, h1]

theorem lowBit_even {x : Nat} (h0 : x ≠ 0) (h1 : x % 2 = 0) :
    lowBit x = 2 * lowBit (x / 2) := by
  rw [lowBit]
  simp [h0, h1]

theorem land_two_pow_sub_eq_lowBit :
    ∀ (t : Nat) {x : Nat}, 0 < x → x < 2 ^ t →
      x &&& (2 ^ t - x) = lowBit x := by
  intro t
  induction t with
  | zero =>
    intro x hx hlt
    omega
  | succ t ih =>
    intro x hx hlt
    have h2 : 2 ^ (t + 1) = 2 * 2 ^ t := by
      rw [Nat.pow_succ, Nat.mul_comm]
    have hP : 1 ≤ 2 ^ t := Nat.one_le_two_pow
    rcases Nat.mod_two_eq_zero_or_one x with hx2 | hx2
    · obtain ⟨y, rfl⟩ : ∃ y, x = 2 * y := ⟨x / 2, by omega⟩
      have hsub : 2 ^ (t + 1) - 2 * y = 2 * (2 ^ t - y) := by omega
      have hdiv : 2 * y / 2 = y := by omega
      rw [hsub, two_mul_land, ih (by omega) (by omega),
        lowBit_even (x := 2 * y) (by omega) (by omega), hdiv]
    · rw [lowBit_odd (by omega) hx2]
      refine Nat.eq_of_testBit_eq fun i => ?_
      cases i with
      | zero =>
        rw [Nat.testBit_and, Nat.testBit_zero, Nat.testBit_zero]
        have hodd : (2 ^ (t + 1) - x) % 2 = 1 := by omega
        simp [hx2, hodd]
      | succ i =>
        rw [Nat.testBit_and]
        have hsub : 2 ^ (t + 1) - x = 2 ^ (t + 1) - 1 - (x - 1) := by omega
        rw [hsub, testBit_two_pow_sub_one_sub (t + 1) (by omega)]
        have hx1 : (x - 1) / 2 = x / 2 := by omega
        rw [Nat.testBit_add_one, Nat.testBit_add_one, hx1,
          ← Nat.testBit_add_one x i]
        have h1 : (1 : Nat).testBit (i + 1) = false := by
          rw [show (1 : Nat) = 2 ^ 0 from rfl, Nat.testBit_two_pow]
          simp
        rw [h1]
        cases htb : x.testBit (i + 1) <;> simp [htb]

theorem lowBit_spec :
    ∀ x, 0 < x → ∃ k, lowBit x = 2 ^ k ∧ x.testBit k = true ∧
      ∀ j, j < k → x.testBit j = false := by
  intro x
  induction x using Nat.strong_induction_on with
  | _ x ih =>
    intro hx
    rcases Nat.mod_two_eq_zero_or_one x with hx2 | hx2
    · have hpos : 0 < x / 2 := by omega
      have hlt : x / 2 < x := Nat.div_lt_self hx (by omega)
      obtain ⟨k, hk1, hk2, hk3⟩ := ih (x / 2) hlt hpos
      refine ⟨k + 1, ?_, ?_, ?_⟩
      · rw [lowBit_even (by omega) hx2, hk1, Nat.pow_succ, Nat.mul_comm]
      · rw [Nat.testBit_add_one]
        exact hk2
      · intro j hj
        cases j with
        | zero =>
          rw [Nat.testBit_zero]
          simp [hx2]
        | succ j =>
          rw [Nat.testBit_add_one]
          exact hk3 j (by omega)
    · refine ⟨0, lowBit_odd (by omega) hx2, ?_, by omega⟩
      rw [Nat.testBit_zero]
      simp [hx2]

/-- C6: for every mask, when the current thread's flag word `w` satisfies
`w & mask ≠ 0`, `wait_one(mask)` returns exactly the lowest set bit of
`w & mask` (the power `2 ^ k` for the least set index `k`) and clears exactly
that one bit from the thread's flag word, leaving all other flag bits
unchanged. -/
theorem flag_wait_one_lowest_bit (w mask : Nat) (hw : w < 65536)
    (hne : w &&& mask ≠ 0) :
    ∃ k, (Threads.flag_wait_one mask w).ret = some (2 ^ k) ∧
      (w &&& mask).testBit k = true ∧
      (∀ j, j < k → (w &&& mask).testBit j = false) ∧
      ∀ i, (Threads.flag_wait_one mask w).flags.testBit i =
        (w.testBit i && !(decide (i = k))) := by
  have hrlt : w &&& mask < 65536 := Nat.lt_of_le_of_lt Nat.and_le_left hw
  have hrpos : 0 < (w &&& mask) := Nat.pos_of_ne_zero hne
  have hplus : u16Not (w &&& mask) + 1 = 65536 - (w &&& mask) := by
    rw [u16Not]; omega
  have h65536 : (65536 : Nat) = 2 ^ 16 := by norm_num
  have hland : (w &&& mask) &&& (65536 - (w &&& mask)) = lowBit (w &&& mask) := by
    rw [h65536]
    exact land_two_pow_sub_eq_lowBit 16 hrpos (h65536 ▸ hrlt)
  obtain ⟨k, hk1, hk2, hk3⟩ := lowBit_spec (w &&& mask) hrpos
  have hk16 : k < 16 := by
    by_contra hk
    have hfb : (w &&& mask).testBit k = false :=
      Nat.testBit_lt_two_pow (Nat.lt_of_lt_of_le hrlt (by
        rw [h65536]
        exact Nat.pow_le_pow_right (by decide) (Nat.not_lt.1 hk)))
    rw [hfb] at hk2
    exact Bool.false_ne_true hk2
  have hcall : Threads.flag_wait_one mask w =
      { ret := some (2 ^ k), flags := w &&& u16Not (2 ^ k),
        blocked := none } := by
    rw [Threads.flag_wait_one, Threads.flag_wait]
    simp only [if_pos hne, hplus, hland, hk1]
  rw [hcall]
  refine ⟨k, rfl, hk2, hk3, ?_⟩
  intro i
  show (w &&& u16Not (2 ^ k)).testBit i = (w.testBit i && !(decide (i = k)))
  have h2k : (2 : Nat) ^ k < 2 ^ 16 :=
    Nat.pow_lt_pow_right (by decide) hk16
  have hsub : u16Not (2 ^ k) = 2 ^ 16 - 1 - 2 ^ k := by
    rw [u16Not]
    omega
  rw [hsub, Nat.testBit_and, testBit_two_pow_sub_one_sub 16 h2k i,
    Nat.testBit_two_pow]
  by_cases hi : i < 16
  · have hcomm : decide (k = i) = decide (i = k) :=
      decide_eq_decide.2 eq_comm
    simp [hi, hcomm]
  · have hwi : w.testBit i = false :=
      Nat.testBit_lt_two_pow (Nat.lt_of_lt_of_le hw (by
        rw [h65536]
        exact Nat.pow_le_pow_right (by decide) (Nat.not_lt.1 hi)))
    simp [hi, hwi]

/-- Witness for C6: flag word `5` with mask `6` yields the lowest common bit
`4 = 2 ^ 2` and clears only it. -/
theorem flag_wait_one_lowest_bit_witness :
    ∃ k, (Threads.flag_wait_one 6 5).ret = some (2 ^ k) ∧
      ((5 : Nat) &&& 6).testBit k = true ∧
      (∀ j, j < k → ((5 : Nat) &&& 6).testBit j = false) ∧
      ∀ i, (Threads.flag_wait_one 6 5).flags.testBit i =
        ((5 : Nat).testBit i && !(decide (i = k))) :=
  flag_wait_one_lowest_bit 5 6 (by decide) (by decide)

/-- `THREADS_NUMOF` of riot-rs-threads (lib.rs line 82). -/
def THREADS_NUMOF : Nat := 16

/-- Slice of the riot `Threads` scheduler state read and written by the lock,
mutex and thread-list operations: per-thread priority (`prio`) and state, the
`thread_blocklist` links, and the current thread.  The runqueue maintenance
and `schedule()` calls those operations also perform act on scheduler
components disjoint from this slice and are external to it. -/
structure LockThreads where
  priorities : Nat → Nat
  states : Nat → ThreadState
  thread_blocklist : Nat → Option Nat
  current_thread : Option Nat

/-- Embedding of `Threads::get_priority` (riot lib.rs lines 316-318). -/
def LockThreads.get_priority (th : LockThreads) (thread_id : Nat) : Nat :=
  th.priorities thread_id

/-- Embedding of `Threads::set_priority` (riot lib.rs lines 321-374) on this
slice: bound check, early return when the priority is unchanged, then the
`prio` field store; the runqueue reseating it performs is external. -/
def LockThreads.set_priority (th : LockThreads) (thread_id new_priority : Nat) :
    LockThreads :=
  if ¬ thread_id < THREADS_NUMOF then th
  else if th.priorities thread_id = new_priority then th
  else { th with priorities := updf th.priorities thread_id new_priority }

/-- Embedding of `Threads::set_state` (riot lib.rs lines 283-305) on this
slice: replace the thread's state and return the old one; the runqueue
add/pop and `schedule()` are external. -/
def LockThreads.set_state (th : LockThreads) (pid : Nat) (st : ThreadState) :
    LockThreads × ThreadState :=
  ({ th with states := updf th.states pid st }, th.states pid)

/-- The insertion-point loop of `ThreadList::put_current`: follow the
blocklist chain while the examined waiter's priority is at least the new
thread's, returning the predecessor and successor of the insertion point.
`fuel` bounds the loop; the chain of a well-formed list is duplicate-free
and bounded, so `THREADS_NUMOF + 1` steps suffice. -/
def walkIns (priorities : Nat → Nat) (bl : Nat → Option Nat) (priority : Nat) :
    Option Nat → Option Nat → Nat → Option Nat × Option Nat
  | curr, next, 0 => (curr, next)
  | curr, some n, fuel + 1 =>
    if priorities n < priority then (curr, some n)
    else walkIns priorities bl priority (some n) (bl n) fuel
  | curr, none, _ => (curr, none)

/-- Embedding of `ThreadList` (threadlist.rs): the head of a wait list chained
through `thread_blocklist`. -/
structure ThreadList where
  head : Option Nat
  deriving DecidableEq

/-- Embedding of `ThreadList::put_current` (threadlist.rs lines 19-44): insert
the current thread into the wait list ordered by descending priority, set its
state, and return `Some` of its priority iff it became the new head.  The
`schedule()` call is external; a missing current thread (`unwrap`) is `none`. -/
def ThreadList.put_current (tl : ThreadList) (threads : LockThreads)
    (state : ThreadState) : Option (ThreadList × LockThreads × Option Nat) :=
  match threads.current_thread with
  | none => none
  | some pid =>
    let priority := threads.priorities pid
    let walked := walkIns threads.priorities threads.thread_blocklist priority
      none tl.head (THREADS_NUMOF + 1)
    let bl1 := updf threads.thread_blocklist pid walked.2
    match walked.1 with
    | some c =>
      some (tl,
        (({ threads with
            thread_blocklist := updf bl1 c (some pid) } : LockThreads).set_state
          pid state).1,
        none)
    | none =>
      some ({ head := some pid },
        (({ threads with thread_blocklist := bl1 } : LockThreads).set_state
          pid state).1,
        some priority)

/-- Embedding of `ThreadList::pop` (threadlist.rs lines 52-58): remove the
head (its link is `take`n), set it `Running`, return it with its old state. -/
def ThreadList.pop (tl : ThreadList) (threads : LockThreads) :
    Option (Nat × ThreadState) × ThreadList × LockThreads :=
  match tl.head with
  | none => (none, tl, threads)
  | some head =>
    let newHead := threads.thread_blocklist head
    let (threads2, old) :=
      ({ threads with
          thread_blocklist := updf threads.thread_blocklist head none }
        : LockThreads).set_state head ThreadState.Running
    (some (head, old), { head := newHead }, threads2)

/-- Embedding of `LockState` (sync/lock.rs and sync/mutex.rs): unlocked, or
locked with the owner id, the owner's normal priority, and the waiter list. -/
inductive LockState where
  | Unlocked
  | Locked (owner_id : Nat) (owner_priority : Nat) (waiters : ThreadList)
  deriving DecidableEq

/-- A lock (the state cell of `Lock`/`Mutex`) together with the scheduler
slice it acts on. -/
structure LockSys where
  threads : LockThreads
  state : LockState

/-- The same system as seen by a call from thread `c` (the source reads the
caller through `current()`). -/
def withCurrent (s : LockSys) (c : Option Nat) : LockSys :=
  { s with threads := { s.threads with current_thread := c } }

/-- Embedding of `Lock::acquire` (sync/lock.rs lines 58-88). -/
def Lock.acquire (s : LockSys) : Option LockSys :=
  match s.threads.current_thread with
  | none => none
  | some pid =>
    match s.state with
    | LockState.Unlocked =>
      some { s with
        state := LockState.Locked pid (s.threads.priorities pid) ⟨none⟩ }
    | LockState.Locked owner_id owner_priority waiters =>
      if owner_id = pid then some s
      else
        match waiters.put_current s.threads ThreadState.LockBlocked with
        | none => none
        | some (waiters2, threads2, inherit) =>
          match inherit with
          | some inherit_priority =>
            if owner_priority < inherit_priority then
              some { threads := threads2.set_priority owner_id inherit_priority,
                     state := LockState.Locked owner_id owner_priority waiters2 }
            else
              some { threads := threads2,
                     state := LockState.Locked owner_id owner_priority waiters2 }
          | none =>
            some { threads := threads2,
                   state := LockState.Locked owner_id owner_priority waiters2 }

/-- Embedding of `Lock::try_acquire` (sync/lock.rs lines 95-115): the Bool is
the source's return value (`true` also when the caller already owns it). -/
def Lock.try_acquire (s : LockSys) : Option (Bool × LockSys) :=
  match s.threads.current_thread with
  | none => none
  | some pid =>
    match s.state with
    | LockState.Unlocked =>
      some (true, { s with
        state := LockState.Locked pid (s.threads.priorities pid) ⟨none⟩ })
    | LockState.Locked owner_id _ _ => some (owner_id == pid, s)

/-- Embedding of `Lock::release` (sync/lock.rs lines 123-145): a non-owner
caller returns with no mutation; otherwise the owner's priority is restored
and the first waiter (if any) becomes the owner at its current priority. -/
def Lock.release (s : LockSys) : Option LockSys :=
  match s.state with
  | LockState.Unlocked => some s
  | LockState.Locked owner_id owner_priority waiters =>
    match s.threads.current_thread with
    | none => none
    | some pid =>
      if pid ≠ owner_id then some s
      else
        let threads1 := s.threads.set_priority owner_id owner_priority
        match waiters.pop threads1 with
        | (some (next_owner, _), waiters2, threads2) =>
          some { threads := threads2,
                 state := LockState.Locked next_owner
                   (threads2.get_priority next_owner) waiters2 }
        | (none, _, threads2) =>
          some { threads := threads2, state := LockState.Unlocked }

/-- Embedding of `Mutex::lock` (sync/mutex.rs lines 54-82): like
`Lock::acquire` but with no owner re-entry check — a `Locked` mutex always
enqueues the caller, even if the caller is the owner. -/
def Mutex.lock (s : LockSys) : Option LockSys :=
  match s.state with
  | LockState.Unlocked =>
    match s.threads.current_thread with
    | none => none
    | some pid =>
      some { s with
        state := LockState.Locked pid (s.threads.priorities pid) ⟨none⟩ }
  | LockState.Locked owner_id owner_priority waiters =>
    match waiters.put_current s.threads ThreadState.LockBlocked with
    | none => none
    | some (waiters2, threads2, inherit) =>
      match inherit with
      | some inherit_priority =>
        if owner_priority < inherit_priority then
          some { threads := threads2.set_priority owner_id inherit_priority,
                 state := LockState.Locked owner_id owner_priority waiters2 }
        else
          some { threads := threads2,
                 state := LockState.Locked owner_id owner_priority waiters2 }
      | none =>
        some { threads := threads2,
               state := LockState.Locked owner_id owner_priority waiters2 }

/-- Embedding of `Mutex::try_lock` (sync/mutex.rs lines 92-108): the Bool
records whether a guard was returned; any `Locked` state yields `None`,
with no owner check. -/
def Mutex.try_lock (s : LockSys) : Option (Bool × LockSys) :=
  match s.threads.current_thread with
  | none => none
  | some pid =>
    match s.state with
    | LockState.Unlocked =>
      some (true, { s with
        state := LockState.Locked pid (s.threads.priorities pid) ⟨none⟩ })
    | LockState.Locked _ _ _ => some (false, s)

/-- Embedding of `Mutex::release` (sync/mutex.rs lines 113-133): restores the
owner's stored priority and hands the mutex to the first waiter (if any); it
never reads the calling thread. -/
def Mutex.release (s : LockSys) : LockSys :=
  match s.state with
  | LockState.Unlocked => s
  | LockState.Locked owner_id owner_priority waiters =>
    let threads1 := s.threads.set_priority owner_id owner_priority
    match waiters.pop threads1 with
    | (some (pid, _), waiters2, threads2) =>
      { threads := threads2,
        state := LockState.Locked pid (threads2.get_priority pid) waiters2 }
    | (none, _, threads2) =>
      { threads := threads2, state := LockState.Unlocked }

theorem LockThreads.set_priority_current (th : LockThreads) (c : Option Nat)
    (t p : Nat) :
    ({ th with current_thread := c } : LockThreads).set_priority t p
      = { th.set_priority t p with current_thread := c } := by
  by_cases h1 : t < THREADS_NUMOF
  · by_cases h2 : th.priorities t = p
    · simp [LockThreads.set_priority, h1, h2]
    · simp [LockThreads.set_priority, h1, h2]
  · simp [LockThreads.set_priority, h1]

theorem ThreadList.pop_current (tl : ThreadList) (th : LockThreads)
    (c : Option Nat) :
    tl.pop { th with current_thread := c }
      = ((tl.pop th).1, (tl.pop th).2.1,
          { (tl.pop th).2.2 with current_thread := c }) := by
  cases hh : tl.head <;> simp [ThreadList.pop, hh, LockThreads.set_state]

/-- `Mutex::release` never reads the calling thread: its effect commutes with
replacing the current thread. -/
theorem Mutex.release_current (s : LockSys) (c : Option Nat) :
    Mutex.release (withCurrent s c) = withCurrent (Mutex.release s) c := by
  rcases s with ⟨th, st⟩
  cases st with
  | Unlocked => rfl
  | Locked o op w =>
    show Mutex.release ⟨{ th with current_thread := c }, LockState.Locked o op w⟩
      = withCurrent (Mutex.release ⟨th, LockState.Locked o op w⟩) c
    simp only [Mutex.release]
    rw [LockThreads.set_priority_current, ThreadList.pop_current]
    rcases hp : w.pop (th.set_priority o op) with ⟨r, tl2, th2⟩
    cases r with
    | none => rfl
    | some pr => rfl

/-- A locked mutex system: thread 0 owns the mutex (stored original priority
1), thread 1 waits on it, and thread 2 — not the owner — is current. -/
def mutexCexSys : LockSys :=
  { threads :=
      { priorities := fun t => if t = 0 then 1 else if t = 1 then 3 else 2
        states := fun t =>
          if t = 1 then ThreadState.LockBlocked
          else if t < 3 then ThreadState.Running else ThreadState.Invalid
        thread_blocklist := fun _ => none
        current_thread := some 2 }
    state := LockState.Locked 0 1 ⟨some 1⟩ }

/-- C5 counterexample: the current thread is 2 but the mutex owner is 0, yet
`Mutex::release` mutates the state — ownership passes to waiter 1 (which is
woken), so a non-owner release of a `Mutex` is not ignored. -/
theorem mutex_release_nonowner_counterexample :
    mutexCexSys.threads.current_thread = some 2 ∧
    mutexCexSys.state = LockState.Locked 0 1 ⟨some 1⟩ ∧
    (Mutex.release mutexCexSys).state = LockState.Locked 1 3 ⟨none⟩ ∧
    (Mutex.release mutexCexSys).threads.states 1 = ThreadState.Running ∧
    Mutex.release mutexCexSys ≠ mutexCexSys := by
  refine ⟨rfl, rfl, rfl, rfl, fun h => ?_⟩
  have h2 : (LockState.Locked 1 3 ⟨none⟩ : LockState)
      = LockState.Locked 0 1 ⟨some 1⟩ :=
    calc (LockState.Locked 1 3 ⟨none⟩ : LockState)
        = (Mutex.release mutexCexSys).state := rfl
      _ = mutexCexSys.state := congrArg LockSys.state h
      _ = LockState.Locked 0 1 ⟨some 1⟩ := rfl
  exact absurd h2 (by decide)

/-- C5 (amended): a non-owner `Lock::release` on a locked Lock returns with
no state mutation; `Mutex::release`, by contrast, never consults the calling
thread — it performs the full hand-off identically whichever thread is
current. -/
theorem release_nonowner_behaviour (s : LockSys) (o op : Nat) (w : ThreadList)
    (c : Nat) (hst : s.state = LockState.Locked o op w)
    (hcur : s.threads.current_thread = some c) (hne : c ≠ o) :
    Lock.release s = some s ∧
    ∀ u : LockSys, ∀ d : Option Nat,
      Mutex.release (withCurrent u d) = withCurrent (Mutex.release u) d := by
  refine ⟨?_, fun u d => Mutex.release_current u d⟩
  rcases s with ⟨th, st⟩
  have hst2 : st = LockState.Locked o op w := hst
  subst hst2
  have hcur2 : th.current_thread = some c := hcur
  simp only [Lock.release, hcur2]
  rw [if_pos hne]

/-- Witness for the amended C5 theorem at the concrete locked system. -/
theorem release_nonowner_behaviour_witness :
    Lock.release mutexCexSys = some mutexCexSys ∧
    ∀ u : LockSys, ∀ d : Option Nat,
      Mutex.release (withCurrent u d) = withCurrent (Mutex.release u) d :=
  release_nonowner_behaviour mutexCexSys 0 1 ⟨some 1⟩ 2 rfl rfl (by decide)

/-- A chain segment threaded through `thread_blocklist`: starting from `h`
and following the links visits exactly the threads of `l`, leaving with
pointer `e`. -/
def isChainSeg (bl : Nat → Option Nat) : Option Nat → List Nat → Option Nat → Prop
  | h, [], e => h = e
  | h, n :: l, e => h = some n ∧ isChainSeg bl (bl n) l e

/-- The full waiter chain of a `ThreadList`: from `h` through `l`, ending in
`none`. -/
def isChain (bl : Nat → Option Nat) (h : Option Nat) (l : List Nat) : Prop :=
  isChainSeg bl h l none

theorem isChainSeg_nil {bl : Nat → Option Nat} {h e : Option Nat} :
    isChainSeg bl h [] e ↔ h = e := Iff.rfl

theorem isChainSeg_cons {bl : Nat → Option Nat} {h e : Option Nat} {n : Nat}
    {l : List Nat} :
    isChainSeg bl h (n :: l) e ↔ h = some n ∧ isChainSeg bl (bl n) l e := Iff.rfl

theorem isChainSeg_append {bl : Nat → Option Nat} :
    ∀ {l₁ l₂ : List Nat} {h e : Option Nat},
      isChainSeg bl h (l₁ ++ l₂) e ↔
        ∃ m, isChainSeg bl h l₁ m ∧ isChainSeg bl m l₂ e
  | [], l₂, h, e => by
    constructor
    · intro hc
      exact ⟨h, rfl, hc⟩
    · rintro ⟨m, hm, hc⟩
      rw [isChainSeg_nil] at hm
      rwa [hm]
  | n :: l₁, l₂, h, e => by
    rw [List.cons_append]
    simp only [isChainSeg_cons]
    constructor
    · rintro ⟨hh, hc⟩
      obtain ⟨m, hm1, hm2⟩ := isChainSeg_append.1 hc
      exact ⟨m, ⟨hh, hm1⟩, hm2⟩
    · rintro ⟨m, ⟨hh, hm1⟩, hm2⟩
      exact ⟨hh, isChainSeg_append.2 ⟨m, hm1, hm2⟩⟩

theorem isChainSeg_congr {bl bl' : Nat → Option Nat} :
    ∀ {l : List Nat} {h e : Option Nat},
      isChainSeg bl h l e → (∀ m ∈ l, bl' m = bl m) → isChainSeg bl' h l e
  | [], _, _, hc, _ => hc
  | n :: l, _, _, ⟨hh, hc⟩, hcong => by
    refine ⟨hh, ?_⟩
    rw [hcong n (by simp)]
    exact isChainSeg_congr hc (fun m hm => hcong m (by simp [hm]))

theorem isChainSeg_last {bl : Nat → Option Nat} :
    ∀ {l : List Nat} {h e : Option Nat},
      isChainSeg bl h l e → l ≠ [] → bl (lastD l) = e
  | [], _, _, _, hne => absurd rfl hne
  | [n], _, _, hc, _ => by
    have : lastD [n] = n := by simp [lastD]
    rw [this]
    exact hc.2
  | n :: m :: l, _, _, hc, _ => by
    rw [lastD_cons_cons]
    exact isChainSeg_last hc.2 (by simp)

theorem isChainSeg_retarget {bl bl' : Nat → Option Nat} :
    ∀ {l : List Nat} {h e e' : Option Nat},
      l.Nodup → isChainSeg bl h l e → l ≠ [] →
      (∀ m ∈ l, m ≠ lastD l → bl' m = bl m) →
      bl' (lastD l) = e' → isChainSeg bl' h l e'
  | [], _, _, _, _, _, hne, _, _ => absurd rfl hne
  | [n], _, _, _, _, hc, _, _, hlast => by
    refine ⟨hc.1, ?_⟩
    simpa [lastD] using hlast
  | n :: m :: l, _, _, _, hnd, hc, _, hcong, hlast => by
    refine ⟨hc.1, ?_⟩
    have hnmem : n ∉ m :: l := (List.nodup_cons.1 hnd).1
    have hne2 : n ≠ lastD (n :: m :: l) := by
      rw [lastD_cons_cons]
      intro heq
      exact hnmem (heq ▸ lastD_mem (l := m :: l) (by simp))
    rw [hcong n (by simp) hne2]
    exact isChainSeg_retarget (List.nodup_cons.1 hnd).2 hc.2 (by simp)
      (fun x hx hxl => hcong x (by simp [hx]) (by rwa [lastD_cons_cons]))
      (by rwa [lastD_cons_cons] at hlast)

theorem isChain_head {bl : Nat → Option Nat} {l : List Nat} {h : Option Nat}
    (hc : isChain bl h l) : h = l.head? := by
  cases l with
  | nil => exact hc
  | cons n l => exact hc.1

theorem isChain_unique {bl : Nat → Option Nat} :
    ∀ {l l' : List Nat} {h : Option Nat},
      isChain bl h l → isChain bl h l' → l = l'
  | [], [], _, _, _ => rfl
  | [], _ :: _, _, hc, hc' => by
    rw [isChain, isChainSeg_nil] at hc
    rw [hc] at hc'
    exact absurd hc'.1 (by simp)
  | _ :: _, [], _, hc, hc' => by
    rw [isChain, isChainSeg_nil] at hc'
    rw [hc'] at hc
    exact absurd hc.1 (by simp)
  | a :: l, b :: l', _, hc, hc' => by
    rw [hc.1] at hc'
    have hab : a = b := Option.some.inj hc'.1
    subst hab
    rw [isChain_unique hc.2 hc'.2]

/-- Characterization of the `put_current` insertion walk: it splits the chain
into a prefix of waiters whose priority is at least the new one and the rest,
returning the last prefix element and the head of the rest. -/
theorem walkIns_spec (prios : Nat → Nat) (bl : Nat → Option Nat)
    (priority : Nat) :
    ∀ (l : List Nat) (curr h : Option Nat) (fuel : Nat),
      isChain bl h l → l.length < fuel →
      ∃ l₁ l₂, l = l₁ ++ l₂ ∧
        (∀ m ∈ l₁, ¬ prios m < priority) ∧
        (l₂ = [] ∨ prios (headD l₂) < priority) ∧
        walkIns prios bl priority curr h fuel
          = ((if l₁ = [] then curr else some (lastD l₁)), l₂.head?)
  | [], curr, h, fuel, hc, hf => by
    refine ⟨[], [], rfl, by simp, Or.inl rfl, ?_⟩
    rw [isChain, isChainSeg_nil] at hc
    subst hc
    obtain ⟨f, rfl⟩ : ∃ f, fuel = f + 1 :=
      ⟨fuel - 1, by omega⟩
    rfl
  | n :: l, curr, h, fuel, hc, hf => by
    obtain ⟨f, rfl⟩ : ∃ f, fuel = f + 1 := ⟨fuel - 1, by omega⟩
    rw [hc.1]
    by_cases hlt : prios n < priority
    · refine ⟨[], n :: l, rfl, by simp, Or.inr (by simpa [headD] using hlt), ?_⟩
      show (if prios n < priority then (curr, some n)
        else walkIns prios bl priority (some n) (bl n) f) = _
      rw [if_pos hlt]
      rfl
    · obtain ⟨l₁, l₂, heq, h₁, h₂, hres⟩ :=
        walkIns_spec prios bl priority l (some n) (bl n) f hc.2
          (by simpa using Nat.lt_of_succ_lt_succ hf)
      refine ⟨n :: l₁, l₂, by rw [List.cons_append, heq], ?_, h₂, ?_⟩
      · intro m hm
        rcases List.mem_cons.1 hm with hm | hm
        · exact hm ▸ hlt
        · exact h₁ m hm
      · show (if prios n < priority then (curr, some n)
          else walkIns prios bl priority (some n) (bl n) f) = _
        rw [if_neg hlt, hres]
        cases l₁ with
        | nil => simp [lastD]
        | cons a l₁ =>
          rw [if_neg (by simp), if_neg (by simp), lastD_cons_cons]

/-- Specification of `ThreadList::put_current`: the current thread `pid` is
inserted into the chain after the waiters of priority at least its own and
before the first waiter of lower priority, it is marked `st`, and the
returned priority is `Some` exactly when it became the new head; the
priorities and the current thread are untouched. -/
theorem ThreadList.put_current_spec (tl : ThreadList) (th : LockThreads)
    (st : ThreadState) (pid : Nat) (l : List Nat)
    (hcur : th.current_thread = some pid)
    (hch : isChain th.thread_blocklist tl.head l)
    (hnotin : pid ∉ l) (hnd : l.Nodup)
    (hlen : l.length ≤ THREADS_NUMOF) :
    ∃ tl2 th2 inh l₁ l₂,
      tl.put_current th st = some (tl2, th2, inh) ∧
      l = l₁ ++ l₂ ∧
      (∀ m ∈ l₁, ¬ th.priorities m < th.priorities pid) ∧
      (l₂ = [] ∨ th.priorities (headD l₂) < th.priorities pid) ∧
      isChain th2.thread_blocklist tl2.head (l₁ ++ pid :: l₂) ∧
      inh = (if l₁ = [] then some (th.priorities pid) else none) ∧
      th2.priorities = th.priorities ∧
      th2.states = updf th.states pid st ∧
      th2.current_thread = th.current_thread := by
  obtain ⟨l₁, l₂, heq, h₁, h₂, hres⟩ :=
    walkIns_spec th.priorities th.thread_blocklist (th.priorities pid) l none
      tl.head (THREADS_NUMOF + 1) hch (Nat.lt_succ_of_le hlen)
  subst heq
  obtain ⟨m, hseg1, hseg2⟩ := isChainSeg_append.1 hch
  have hm : m = l₂.head? := isChain_head hseg2
  subst hm
  have hpid1 : pid ∉ l₁ := fun hx => hnotin (List.mem_append.2 (Or.inl hx))
  have hpid2 : pid ∉ l₂ := fun hx => hnotin (List.mem_append.2 (Or.inr hx))
  obtain ⟨hnd1, hnd2, hdisj⟩ := List.nodup_append.1 hnd
  cases hl₁ : l₁ with
  | nil =>
    subst hl₁
    have hpc : tl.put_current th st
        = some ({ head := some pid },
            { th with
                thread_blocklist := updf th.thread_blocklist pid l₂.head?
                states := updf th.states pid st },
            some (th.priorities pid)) := by
      simp only [ThreadList.put_current, hcur, hres]
      rfl
    refine ⟨_, _, _, [], l₂, hpc, rfl, by simp, h₂, ?_, rfl, rfl, rfl, rfl⟩
    refine ⟨rfl, ?_⟩
    show isChainSeg _ (updf th.thread_blocklist pid l₂.head? pid) l₂ none
    rw [updf_same]
    exact isChainSeg_congr hseg2
      (fun x hx => updf_ne _ _ (fun hxe => hpid2 (hxe ▸ hx)))
  | cons a l₁' =>
    subst hl₁
    have hlne : a :: l₁' ≠ [] := by simp
    have hlastmem : lastD (a :: l₁') ∈ a :: l₁' := lastD_mem hlne
    have hpidlast : pid ≠ lastD (a :: l₁') := fun hxe => hpid1 (hxe ▸ hlastmem)
    have hpc : tl.put_current th st
        = some (tl,
            { th with
                thread_blocklist :=
                  updf (updf th.thread_blocklist pid l₂.head?)
                    (lastD (a :: l₁')) (some pid)
                states := updf th.states pid st },
            none) := by
      simp only [ThreadList.put_current, hcur, hres]
      rfl
    refine ⟨_, _, _, a :: l₁', l₂, hpc, rfl, h₁, h₂, ?_, by simp, rfl, rfl, rfl⟩
    refine isChainSeg_append.2 ⟨some pid, ?_, ?_⟩
    · refine isChainSeg_retarget hnd1 hseg1 hlne ?_ (updf_same _ _ _)
      intro x hx hxl
      show updf (updf th.thread_blocklist pid l₂.head?)
        (lastD (a :: l₁')) (some pid) x = th.thread_blocklist x
      rw [updf_ne _ _ hxl, updf_ne _ _ (fun hxe : x = pid => hpid1 (hxe ▸ hx))]
    · refine ⟨rfl, ?_⟩
      show isChainSeg _
        (updf (updf th.thread_blocklist pid l₂.head?)
          (lastD (a :: l₁')) (some pid) pid) l₂ none
      rw [updf_ne _ _ hpidlast, updf_same]
      refine isChainSeg_congr hseg2 (fun x hx => ?_)
      show updf (updf th.thread_blocklist pid l₂.head?)
        (lastD (a :: l₁')) (some pid) x = th.thread_blocklist x
      rw [updf_ne _ _ (fun hxe : x = lastD (a :: l₁') =>
            hdisj (hxe ▸ hlastmem) hx),
        updf_ne _ _ (fun hxe : x = pid => hpid2 (hxe ▸ hx))]

theorem LockThreads.set_priority_blocklist (th : LockThreads) (t p : Nat) :
    (th.set_priority t p).thread_blocklist = th.thread_blocklist := by
  by_cases h1 : t < THREADS_NUMOF
  · by_cases h2 : th.priorities t = p <;> simp [LockThreads.set_priority, h1, h2]
  · simp [LockThreads.set_priority, h1]

theorem LockThreads.set_priority_states (th : LockThreads) (t p : Nat) :
    (th.set_priority t p).states = th.states := by
  by_cases h1 : t < THREADS_NUMOF
  · by_cases h2 : th.priorities t = p <;> simp [LockThreads.set_priority, h1, h2]
  · simp [LockThreads.set_priority, h1]

theorem LockThreads.set_priority_current_eq (th : LockThreads) (t p : Nat) :
    (th.set_priority t p).current_thread = th.current_thread := by
  by_cases h1 : t < THREADS_NUMOF
  · by_cases h2 : th.priorities t = p <;> simp [LockThreads.set_priority, h1, h2]
  · simp [LockThreads.set_priority, h1]

/-- C9: a Mutex is not owner-re-entrant while a Lock is.  With the mutex/lock
`Locked` by the very thread `c` that is current, `Mutex::try_lock` returns
`None` (modelled `false`) leaving the state unchanged, and `Mutex::lock`
enqueues `c` itself on the waiter list as `LockBlocked`; by contrast
`Lock::acquire` returns at once with no mutation and `Lock::try_acquire`
returns `true`. -/
theorem mutex_not_reentrant (s : LockSys) (c op : Nat) (w : ThreadList)
    (l : List Nat)
    (hst : s.state = LockState.Locked c op w)
    (hcur : s.threads.current_thread = some c)
    (hch : isChain s.threads.thread_blocklist w.head l)
    (hnotin : c ∉ l) (hnd : l.Nodup) (hlen : l.length ≤ THREADS_NUMOF) :
    Mutex.try_lock s = some (false, s) ∧
    Lock.acquire s = some s ∧
    Lock.try_acquire s = some (true, s) ∧
    ∃ s' w2 l', Mutex.lock s = some s' ∧
      s'.state = LockState.Locked c op w2 ∧
      isChain s'.threads.thread_blocklist w2.head l' ∧
      c ∈ l' ∧
      s'.threads.states c = ThreadState.LockBlocked := by
  rcases s with ⟨th, st⟩
  have hst2 : st = LockState.Locked c op w := hst
  subst hst2
  have hcur2 : th.current_thread = some c := hcur
  have hch2 : isChain th.thread_blocklist w.head l := hch
  obtain ⟨tl2, th2, inh, l₁, l₂, hpc, hsplit, hpre, hpost, hchain2, hinh,
      hprio2, hstates2, hcur3⟩ :=
    ThreadList.put_current_spec w th ThreadState.LockBlocked c l hcur2 hch2
      hnotin hnd hlen
  have hstc : th2.states c = ThreadState.LockBlocked := by
    rw [hstates2, updf_same]
  have hcmem : c ∈ l₁ ++ c :: l₂ :=
    List.mem_append.2 (Or.inr (List.mem_cons_self c l₂))
  refine ⟨?_, ?_, ?_, ?_⟩
  · simp only [Mutex.try_lock, hcur2]
  · simp only [Lock.acquire, hcur2]
    simp
  · simp only [Lock.try_acquire, hcur2]
    simp
  · simp only [Mutex.lock, hpc]
    cases inh with
    | none => exact ⟨_, tl2, l₁ ++ c :: l₂, rfl, rfl, hchain2, hcmem, hstc⟩
    | some p =>
      by_cases hop : op < p
      · refine ⟨{ threads := th2.set_priority c p,
                  state := LockState.Locked c op tl2 }, tl2,
              l₁ ++ c :: l₂, if_pos hop, rfl, ?_, hcmem, ?_⟩
        · show isChain (th2.set_priority c p).thread_blocklist tl2.head
            (l₁ ++ c :: l₂)
          rw [LockThreads.set_priority_blocklist]
          exact hchain2
        · show (th2.set_priority c p).states c = ThreadState.LockBlocked
          rw [LockThreads.set_priority_states]
          exact hstc
      · exact ⟨{ threads := th2, state := LockState.Locked c op tl2 }, tl2,
          l₁ ++ c :: l₂, if_neg hop, rfl, hchain2, hcmem, hstc⟩

/-- A system whose lock is held by thread 0, which is also current. -/
def reentrantSys : LockSys :=
  { threads :=
      { priorities := fun t => if t = 0 then 2 else 1
        states := fun t => if t < 2 then ThreadState.Running
          else ThreadState.Invalid
        thread_blocklist := fun _ => none
        current_thread := some 0 }
    state := LockState.Locked 0 2 ⟨none⟩ }

/-- Witness for C9 at the concrete owner-is-caller system. -/
theorem mutex_not_reentrant_witness :
    Mutex.try_lock reentrantSys = some (false, reentrantSys) ∧
    Lock.acquire reentrantSys = some reentrantSys ∧
    Lock.try_acquire reentrantSys = some (true, reentrantSys) ∧
    ∃ s' w2 l', Mutex.lock reentrantSys = some s' ∧
      s'.state = LockState.Locked 0 2 w2 ∧
      isChain s'.threads.thread_blocklist w2.head l' ∧
      0 ∈ l' ∧
      s'.threads.states 0 = ThreadState.LockBlocked :=
  mutex_not_reentrant reentrantSys 0 2 ⟨none⟩ [] rfl rfl rfl (by simp)
    (by simp) (by simp)

theorem LockThreads.set_priority_priorities_ne (th : LockThreads) (t p m : Nat)
    (hm : m ≠ t) : (th.set_priority t p).priorities m = th.priorities m := by
  rw [LockThreads.set_priority]
  by_cases h1 : t < THREADS_NUMOF
  · rw [if_neg (fun hh => hh h1)]
    by_cases h2 : th.priorities t = p
    · rw [if_pos h2]
    · rw [if_neg h2]
      exact updf_ne _ _ hm
  · rw [if_pos h1]

theorem LockThreads.set_priority_priorities_self (th : LockThreads) (t p : Nat)
    (ht : t < THREADS_NUMOF) : (th.set_priority t p).priorities t = p := by
  rw [LockThreads.set_priority, if_neg (fun hh => hh ht)]
  by_cases h2 : th.priorities t = p
  · rw [if_pos h2]
    exact h2
  · rw [if_neg h2]
    exact updf_same _ _ _

theorem ThreadList.pop_priorities (tl : ThreadList) (th : LockThreads) :
    (tl.pop th).2.2.priorities = th.priorities := by
  cases hh : tl.head <;> simp [ThreadList.pop, hh, LockThreads.set_state]

/-- A duplicate-free list of naturals below `n` has at most `n` elements. -/
theorem nodup_bounded_length {l : List Nat} {n : Nat} (hnd : l.Nodup)
    (hb : ∀ m ∈ l, m < n) : l.length ≤ n := by
  have h1 : l.length = l.toFinset.card := (List.toFinset_card_of_nodup hnd).symm
  have h2 : l.toFinset ⊆ Finset.range n := by
    intro x hx
    rw [Finset.mem_range]
    exact hb x (List.mem_toFinset.1 hx)
  calc l.length = l.toFinset.card := h1
    _ ≤ (Finset.range n).card := Finset.card_le_card h2
    _ = n := Finset.card_range n

/-- The state produced by a contended `Lock::acquire`, as a function of the
inherit-priority value returned by `put_current`. -/
def contendResult (th2 : LockThreads) (o op : Nat) (tl2 : ThreadList) :
    Option Nat → LockSys
  | some p =>
    if op < p then ⟨th2.set_priority o p, LockState.Locked o op tl2⟩
    else ⟨th2, LockState.Locked o op tl2⟩
  | none => ⟨th2, LockState.Locked o op tl2⟩

/-- Unfolding of `Lock::acquire` when the lock is held by another thread. -/
theorem Lock.acquire_contend (th : LockThreads) (o op : Nat) (w : ThreadList)
    (c : Nat) (hcur : th.current_thread = some c) (hoc : ¬ o = c)
    (tl2 : ThreadList) (th2 : LockThreads) (inh : Option Nat)
    (hpc : w.put_current th ThreadState.LockBlocked = some (tl2, th2, inh)) :
    Lock.acquire ⟨th, LockState.Locked o op w⟩
      = some (contendResult th2 o op tl2 inh) := by
  simp only [Lock.acquire, hcur, hpc]
  rw [if_neg hoc]
  cases inh with
  | none => rfl
  | some p =>
    by_cases hop : op < p
    · simp [contendResult, hop]
    · simp [contendResult, hop]

/-- Unfolding of `Lock::release` when the caller is the owner. -/
theorem Lock.release_owner (th : LockThreads) (o op : Nat) (w : ThreadList)
    (hcur : th.current_thread = some o) :
    Lock.release ⟨th, LockState.Locked o op w⟩
      = some (match w.pop (th.set_priority o op) with
        | (some (h2, _), tl2, th2) =>
          (⟨th2, LockState.Locked h2 (th2.priorities h2) tl2⟩ : LockSys)
        | (none, _, th2) => ⟨th2, LockState.Unlocked⟩) := by
  simp only [Lock.release, hcur]
  rw [if_neg (fun hh => hh rfl)]
  rcases w.pop (th.set_priority o op) with ⟨r, tl2, th2⟩
  rcases r with _ | ⟨h2, st2⟩
  · rfl
  · rfl

/-- One lock-API step for claim C2: a runnable in-range thread `c` calls
`acquire` or `release`, running with itself as the current thread. -/
inductive LockStep : LockSys → LockSys → Prop
  | acquire {s s' : LockSys} (c : Nat) :
      c < THREADS_NUMOF → s.threads.states c = ThreadState.Running →
      Lock.acquire (withCurrent s (some c)) = some s' → LockStep s s'
  | release {s s' : LockSys} (c : Nat) :
      c < THREADS_NUMOF → s.threads.states c = ThreadState.Running →
      Lock.release (withCurrent s (some c)) = some s' → LockStep s s'

/-- Reachability by lock-API steps. -/
inductive LockReach : LockSys → LockSys → Prop
  | refl (s : LockSys) : LockReach s s
  | step {s0 s s' : LockSys} : LockReach s0 s → LockStep s s' →
      LockReach s0 s'

/-- Invariant of the lock system: whenever the lock is held, the owner is a
live running thread off its own waiter list, the waiter list is a
duplicate-free chain of in-range `LockBlocked` threads sorted by descending
priority, and the owner's live priority dominates its stored original
priority and all waiter priorities. -/
def LockInv (s : LockSys) : Prop :=
  ∀ o op w, s.state = LockState.Locked o op w →
    o < THREADS_NUMOF ∧ s.threads.states o = ThreadState.Running ∧
    ∃ l, isChain s.threads.thread_blocklist w.head l ∧
      l.Nodup ∧ (∀ m ∈ l, m < THREADS_NUMOF) ∧
      l.Pairwise (fun a b => s.threads.priorities b ≤ s.threads.priorities a) ∧
      o ∉ l ∧
      (∀ m ∈ l, s.threads.states m = ThreadState.LockBlocked) ∧
      op ≤ s.threads.priorities o ∧
      (∀ m ∈ l, s.threads.priorities m ≤ s.threads.priorities o)

theorem LockInv_withCurrent {s : LockSys} (h : LockInv s) (c : Option Nat) :
    LockInv (withCurrent s c) :=
  fun o op w hw => h o op w hw

theorem LockInv_unlocked (s : LockSys) (h : s.state = LockState.Unlocked) :
    LockInv s :=
  fun _ _ _ hw => LockState.noConfusion (h.symm.trans hw)

/-- The lock invariant is preserved by every `acquire`/`release` step. -/
theorem LockInv_step {s s' : LockSys} (hinv : LockInv s) (hst : LockStep s s') :
    LockInv s' := by
  cases hst with
  | acquire c hc hrun hacq =>
    cases hsst : s.state with
    | Unlocked =>
      have hu : withCurrent s (some c)
          = ⟨{ s.threads with current_thread := some c },
              LockState.Unlocked⟩ := by
        rw [withCurrent, hsst]
      rw [hu] at hacq
      have hacq2 : Lock.acquire
          (⟨{ s.threads with current_thread := some c },
            LockState.Unlocked⟩ : LockSys)
          = some ⟨{ s.threads with current_thread := some c },
              LockState.Locked c (s.threads.priorities c) ⟨none⟩⟩ := rfl
      rw [hacq2] at hacq
      obtain rfl := Option.some.inj hacq
      intro o op w hw
      have hw3 : LockState.Locked c (s.threads.priorities c) ⟨none⟩
          = LockState.Locked o op w := hw
      injection hw3 with h1 h2 h3
      subst h1
      subst h2
      subst h3
      refine ⟨hc, hrun, [], rfl, List.nodup_nil, by simp, List.Pairwise.nil,
        by simp, by simp, Nat.le_refl _, by simp⟩
    | Locked o op w =>
      obtain ⟨ho16, hor, l, hch, hnd, hb, hpw, honl, hbl, hop, hmax⟩ :=
        hinv o op w hsst
      by_cases hoc : o = c
      · subst hoc
        have hu : withCurrent s (some o)
            = ⟨{ s.threads with current_thread := some o },
                LockState.Locked o op w⟩ := by
          rw [withCurrent, hsst]
        rw [hu] at hacq
        have hacq2 : Lock.acquire ⟨{ s.threads with current_thread := some o },
            LockState.Locked o op w⟩
            = some ⟨{ s.threads with current_thread := some o },
                LockState.Locked o op w⟩ := by
          simp [Lock.acquire]
        rw [hacq2] at hacq
        obtain rfl := Option.some.inj hacq
        intro o2 op2 w2 hw2
        have hw3 : LockState.Locked o op w = LockState.Locked o2 op2 w2 := hw2
        injection hw3 with h1 h2 h3
        subst h1
        subst h2
        subst h3
        exact ⟨ho16, hor, l, hch, hnd, hb, hpw, honl, hbl, hop, hmax⟩
      · have hcl : c ∉ l := fun hcin =>
          ThreadState.noConfusion (hrun.symm.trans (hbl c hcin))
        have hlen : l.length ≤ THREADS_NUMOF := nodup_bounded_length hnd hb
        obtain ⟨tl2, th2, inh, l₁, l₂, hpc, hsplit, hpre, hpost, hchain2, hinh,
            hprio2, hstates2, hcur3⟩ :=
          ThreadList.put_current_spec w
            { s.threads with current_thread := some c }
            ThreadState.LockBlocked c l rfl hch hcl hnd hlen
        subst hsplit
        have hpre2 : ∀ m ∈ l₁,
            s.threads.priorities c ≤ s.threads.priorities m :=
          fun m hm => Nat.le_of_not_lt (hpre m hm)
        have hpost2 : l₂ = [] ∨
            s.threads.priorities (headD l₂) < s.threads.priorities c := hpost
        have hprio2b : th2.priorities = s.threads.priorities := hprio2
        have hstates2b : th2.states
            = updf s.threads.states c ThreadState.LockBlocked := hstates2
        have hu : withCurrent s (some c)
            = ⟨{ s.threads with current_thread := some c },
                LockState.Locked o op w⟩ := by
          rw [withCurrent, hsst]
        rw [hu, Lock.acquire_contend _ o op w c rfl hoc tl2 th2 inh hpc] at hacq
        obtain rfl := Option.some.inj hacq
        have hnd2 : (l₁ ++ c :: l₂).Nodup := by
          rw [List.nodup_middle]
          exact List.nodup_cons.2 ⟨hcl, hnd⟩
        have hmem_c : ∀ m ∈ l₁ ++ c :: l₂, m = c ∨ m ∈ l₁ ++ l₂ := by
          intro m hm
          rcases List.mem_append.1 hm with h | h
          · exact Or.inr (List.mem_append.2 (Or.inl h))
          · rcases List.mem_cons.1 h with h | h
            · exact Or.inl h
            · exact Or.inr (List.mem_append.2 (Or.inr h))
        have hb2 : ∀ m ∈ l₁ ++ c :: l₂, m < THREADS_NUMOF := by
          intro m hm
          rcases hmem_c m hm with rfl | h
          · exact hc
          · exact hb m h
        have hstates_new : ∀ m ∈ l₁ ++ c :: l₂,
            th2.states m = ThreadState.LockBlocked := by
          intro m hm
          rcases hmem_c m hm with rfl | h
          · rw [hstates2b, updf_same]
          · rw [hstates2b, updf_ne _ _ (fun he : m = c => absurd (he ▸ h) hcl)]
            exact hbl m h
        have hl2le : ∀ b ∈ l₂,
            s.threads.priorities b ≤ s.threads.priorities c := by
          intro b hb2m
          rcases hpost2 with hnil | hlt
          · rw [hnil] at hb2m
            exact absurd hb2m (by simp)
          · have hpwl₂ : l₂.Pairwise
                (fun a b => s.threads.priorities b ≤ s.threads.priorities a) :=
              ((List.pairwise_append.1 hpw).2).1
            cases hl₂ : l₂ with
            | nil =>
              rw [hl₂] at hb2m
              exact absurd hb2m (by simp)
            | cons y ys =>
              rw [hl₂] at hb2m hlt hpwl₂
              have hy : s.threads.priorities y < s.threads.priorities c := by
                simpa [headD] using hlt
              rcases List.mem_cons.1 hb2m with rfl | hbys
              · exact Nat.le_of_lt hy
              · exact Nat.le_trans ((List.pairwise_cons.1 hpwl₂).1 b hbys)
                  (Nat.le_of_lt hy)
        have hpw2 : (l₁ ++ c :: l₂).Pairwise
            (fun a b => s.threads.priorities b ≤ s.threads.priorities a) := by
          obtain ⟨hpw1, hpwl₂, hcross⟩ := List.pairwise_append.1 hpw
          refine List.pairwise_append.2 ⟨hpw1,
            List.pairwise_cons.2 ⟨hl2le, hpwl₂⟩, ?_⟩
          intro a ha b hbm
          rcases List.mem_cons.1 hbm with rfl | hbm2
          · exact hpre2 a ha
          · exact hcross a ha b hbm2
        have honl2 : o ∉ l₁ ++ c :: l₂ := by
          intro hm
          rcases hmem_c o hm with rfl | h
          · exact hoc rfl
          · exact honl h
        have hinvA : s.threads.priorities c ≤ s.threads.priorities o →
            LockInv ⟨th2, LockState.Locked o op tl2⟩ := by
          intro hcle o2 op2 w2 hw2
          have hw3 : LockState.Locked o op tl2 = LockState.Locked o2 op2 w2 :=
            hw2
          injection hw3 with h1 h2 h3
          subst h1
          subst h2
          subst h3
          refine ⟨ho16, ?_, l₁ ++ c :: l₂, hchain2, hnd2, hb2, ?_, honl2,
            hstates_new, ?_, ?_⟩
          · show th2.states o = ThreadState.Running
            rw [hstates2b, updf_ne _ _ hoc]
            exact hor
          · show (l₁ ++ c :: l₂).Pairwise
              (fun a b => th2.priorities b ≤ th2.priorities a)
            rw [hprio2b]
            exact hpw2
          · show op ≤ th2.priorities o
            rw [hprio2b]
            exact hop
          · intro m hm
            show th2.priorities m ≤ th2.priorities o
            rw [hprio2b]
            rcases hmem_c m hm with rfl | h
            · exact hcle
            · exact hmax m h
        have hinvB : l₁ = [] → op < s.threads.priorities c →
            LockInv ⟨th2.set_priority o (s.threads.priorities c),
              LockState.Locked o op tl2⟩ := by
          intro hl₁ hoplt o2 op2 w2 hw2
          have hw3 : LockState.Locked o op tl2 = LockState.Locked o2 op2 w2 :=
            hw2
          injection hw3 with h1 h2 h3
          subst h1
          subst h2
          subst h3
          have hprio_mem : ∀ m ∈ l₁ ++ c :: l₂,
              (th2.set_priority o (s.threads.priorities c)).priorities m
                = s.threads.priorities m := by
            intro m hm
            rw [LockThreads.set_priority_priorities_ne _ _ _ m
              (fun he : m = o => honl2 (he ▸ hm)), hprio2b]
          have hprio_o : (th2.set_priority o
              (s.threads.priorities c)).priorities o
              = s.threads.priorities c :=
            LockThreads.set_priority_priorities_self _ _ _ ho16
          refine ⟨ho16, ?_, l₁ ++ c :: l₂, ?_, hnd2, hb2, ?_, honl2, ?_, ?_, ?_⟩
          · show (th2.set_priority o _).states o = ThreadState.Running
            rw [LockThreads.set_priority_states, hstates2b, updf_ne _ _ hoc]
            exact hor
          · show isChain (th2.set_priority o _).thread_blocklist tl2.head _
            rw [LockThreads.set_priority_blocklist]
            exact hchain2
          · refine List.Pairwise.imp_of_mem ?_ hpw2
            intro a b ha hb3 hr
            show (th2.set_priority o _).priorities b
              ≤ (th2.set_priority o _).priorities a
            rw [hprio_mem a ha, hprio_mem b hb3]
            exact hr
          · intro m hm
            show (th2.set_priority o _).states m = ThreadState.LockBlocked
            rw [LockThreads.set_priority_states]
            exact hstates_new m hm
          · show op ≤ (th2.set_priority o _).priorities o
            rw [hprio_o]
            exact Nat.le_of_lt hoplt
          · intro m hm
            show (th2.set_priority o _).priorities m
              ≤ (th2.set_priority o _).priorities o
            rw [hprio_mem m hm, hprio_o]
            rcases hmem_c m hm with rfl | h
            · exact Nat.le_refl _
            · rw [hl₁] at h
              exact hl2le m (by simpa using h)
        by_cases hl₁ : l₁ = []
        · have hinh2 : inh = some (s.threads.priorities c) := by
            rw [hinh, if_pos hl₁]
          rw [hinh2]
          by_cases hoplt : op < s.threads.priorities c
          · show LockInv (if op < s.threads.priorities c then
                (⟨th2.set_priority o (s.threads.priorities c),
                  LockState.Locked o op tl2⟩ : LockSys)
              else ⟨th2, LockState.Locked o op tl2⟩)
            rw [if_pos hoplt]
            exact hinvB hl₁ hoplt
          · show LockInv (if op < s.threads.priorities c then
                (⟨th2.set_priority o (s.threads.priorities c),
                  LockState.Locked o op tl2⟩ : LockSys)
              else ⟨th2, LockState.Locked o op tl2⟩)
            rw [if_neg hoplt]
            exact hinvA (Nat.le_trans (Nat.le_of_not_lt hoplt) hop)
        · have hinh2 : inh = none := by
            rw [hinh, if_neg hl₁]
          rw [hinh2]
          refine hinvA ?_
          obtain ⟨a, l₁', rfl⟩ : ∃ a l₁', l₁ = a :: l₁' := by
            cases l₁ with
            | nil => exact absurd rfl hl₁
            | cons a t => exact ⟨a, t, rfl⟩
          exact Nat.le_trans (hpre2 a (by simp))
            (hmax a (List.mem_append.2 (Or.inl (by simp))))
  | release c hc hrun hrel =>
    cases hsst : s.state with
    | Unlocked =>
      have hu : withCurrent s (some c)
          = ⟨{ s.threads with current_thread := some c },
              LockState.Unlocked⟩ := by
        rw [withCurrent, hsst]
      rw [hu] at hrel
      have hrel2 : Lock.release
          (⟨{ s.threads with current_thread := some c },
            LockState.Unlocked⟩ : LockSys)
          = some ⟨{ s.threads with current_thread := some c },
              LockState.Unlocked⟩ := rfl
      rw [hrel2] at hrel
      obtain rfl := Option.some.inj hrel
      exact LockInv_unlocked _ rfl
    | Locked o op w =>
      obtain ⟨ho16, hor, l, hch, hnd, hb, hpw, honl, hbl, hop, hmax⟩ :=
        hinv o op w hsst
      have hu : withCurrent s (some c)
          = ⟨{ s.threads with current_thread := some c },
              LockState.Locked o op w⟩ := by
        rw [withCurrent, hsst]
      rw [hu] at hrel
      by_cases hoc : c = o
      · subst hoc
        rw [Lock.release_owner _ _ _ _ rfl] at hrel
        obtain ⟨th1, hth1⟩ : ∃ th1,
            ({ s.threads with current_thread := some c }
              : LockThreads).set_priority c op = th1 := ⟨_, rfl⟩
        rw [hth1] at hrel
        have hth1p_ne : ∀ m, m ≠ c →
            th1.priorities m = s.threads.priorities m := by
          intro m hm
          rw [← hth1]
          exact LockThreads.set_priority_priorities_ne _ _ _ m hm
        have hth1s : th1.states = s.threads.states := by
          rw [← hth1, LockThreads.set_priority_states]
        have hth1b : th1.thread_blocklist = s.threads.thread_blocklist := by
          rw [← hth1, LockThreads.set_priority_blocklist]
        cases hl : l with
        | nil =>
          subst hl
          have hw0 : w.head = none := by
            rw [isChain_head hch]
            rfl
          have hpop : w.pop th1 = (none, w, th1) := by
            simp only [ThreadList.pop, hw0]
          rw [hpop] at hrel
          obtain rfl := Option.some.inj hrel
          exact LockInv_unlocked _ rfl
        | cons h2 rest =>
          subst hl
          have hw0 : w.head = some h2 := by
            rw [isChain_head hch]
            rfl
          have hpop : w.pop th1 = (some (h2, th1.states h2),
              ⟨th1.thread_blocklist h2⟩,
              { th1 with
                  thread_blocklist := updf th1.thread_blocklist h2 none
                  states := updf th1.states h2 ThreadState.Running }) := by
            simp only [ThreadList.pop, hw0, LockThreads.set_state]
          rw [hpop] at hrel
          obtain rfl := Option.some.inj hrel
          have hh2c : h2 ≠ c := fun he => honl (he ▸ List.mem_cons_self h2 rest)
          have hrestc : ∀ m ∈ rest, m ≠ c :=
            fun m hm he => honl (he ▸ List.mem_cons_of_mem h2 hm)
          have hh2rest : h2 ∉ rest := (List.nodup_cons.1 hnd).1
          intro o2 op2 w2 hw2
          have hw3 : LockState.Locked h2
              (({ th1 with
                  thread_blocklist := updf th1.thread_blocklist h2 none
                  states := updf th1.states h2 ThreadState.Running }
                : LockThreads).priorities h2)
              ⟨th1.thread_blocklist h2⟩
              = LockState.Locked o2 op2 w2 := hw2
          injection hw3 with h1 hpeq h3
          subst h1
          subst hpeq
          subst h3
          refine ⟨hb h2 (List.mem_cons_self h2 rest), ?_, rest, ?_,
            (List.nodup_cons.1 hnd).2, ?_, ?_, hh2rest, ?_, Nat.le_refl _, ?_⟩
          · show updf th1.states h2 ThreadState.Running h2 = ThreadState.Running
            rw [updf_same]
          · show isChain (updf th1.thread_blocklist h2 none)
              (th1.thread_blocklist h2) rest
            rw [hth1b]
            exact isChainSeg_congr hch.2
              (fun m hm => updf_ne _ _ (fun he : m = h2 => hh2rest (he ▸ hm)))
          · exact fun m hm => hb m (List.mem_cons_of_mem h2 hm)
          · refine List.Pairwise.imp_of_mem ?_ ((List.pairwise_cons.1 hpw).2)
            intro a b ha hb3 hr
            show th1.priorities b ≤ th1.priorities a
            rw [hth1p_ne a (hrestc a ha), hth1p_ne b (hrestc b hb3)]
            exact hr
          · intro m hm
            show updf th1.states h2 ThreadState.Running m
              = ThreadState.LockBlocked
            rw [updf_ne _ _ (fun he : m = h2 => hh2rest (he ▸ hm)), hth1s]
            exact hbl m (List.mem_cons_of_mem h2 hm)
          · intro m hm
            show th1.priorities m ≤ th1.priorities h2
            rw [hth1p_ne m (hrestc m hm), hth1p_ne h2 hh2c]
            exact (List.pairwise_cons.1 hpw).1 m hm
      · have hrel2 : Lock.release
            (⟨{ s.threads with current_thread := some c },
              LockState.Locked o op w⟩ : LockSys)
            = some ⟨{ s.threads with current_thread := some c },
                LockState.Locked o op w⟩ := by
          simp only [Lock.release]
          rw [if_pos hoc]
        rw [hrel2] at hrel
        obtain rfl := Option.some.inj hrel
        intro o2 op2 w2 hw2
        have hw3 : LockState.Locked o op w = LockState.Locked o2 op2 w2 := hw2
        injection hw3 with h1 h2 h3
        subst h1
        subst h2
        subst h3
        exact ⟨ho16, hor, l, hch, hnd, hb, hpw, honl, hbl, hop, hmax⟩

theorem LockInv_reach {s0 s : LockSys} (h0 : LockInv s0)
    (hr : LockReach s0 s) : LockInv s := by
  induction hr with
  | refl => exact h0
  | step hr hst ih => exact LockInv_step ih hst

/-- C2: starting from an unlocked lock, along any sequence of
`acquire`/`release` calls by runnable in-range threads, whenever the lock is
`Locked { owner, owner_original_priority, waiters }` the owner's live
priority is at least the stored original priority and at least the priority
of every thread on the waiter chain; and a `release` call by the owner
leaves the owner's live priority restored to the stored original priority. -/
theorem lock_priority_inheritance (s0 s : LockSys)
    (h0 : s0.state = LockState.Unlocked) (hr : LockReach s0 s) :
    (∀ o op w, s.state = LockState.Locked o op w →
      op ≤ s.threads.priorities o ∧
      ∀ l, isChain s.threads.thread_blocklist w.head l →
        ∀ m ∈ l, s.threads.priorities m ≤ s.threads.priorities o) ∧
    (∀ o op w s', s.state = LockState.Locked o op w →
      Lock.release (withCurrent s (some o)) = some s' →
      s'.threads.priorities o = op) := by
  have hinv : LockInv s := LockInv_reach (LockInv_unlocked s0 h0) hr
  constructor
  · intro o op w hw
    obtain ⟨ho16, hor, l, hch, hnd, hb, hpw, honl, hbl, hop, hmax⟩ :=
      hinv o op w hw
    exact ⟨hop, fun l' hch2 m hm =>
      hmax m ((isChain_unique hch2 hch) ▸ hm)⟩
  · intro o op w s' hw hrel
    obtain ⟨ho16, hor, l, hch, hnd, hb, hpw, honl, hbl, hop, hmax⟩ :=
      hinv o op w hw
    have hu : withCurrent s (some o)
        = ⟨{ s.threads with current_thread := some o },
            LockState.Locked o op w⟩ := by
      rw [withCurrent, hw]
    rw [hu, Lock.release_owner _ _ _ _ rfl] at hrel
    obtain ⟨th1, hth1⟩ : ∃ th1,
        ({ s.threads with current_thread := some o }
          : LockThreads).set_priority o op = th1 := ⟨_, rfl⟩
    rw [hth1] at hrel
    have hth1p : th1.priorities o = op := by
      rw [← hth1]
      exact LockThreads.set_priority_priorities_self _ _ _ ho16
    rcases hpop : w.pop th1 with ⟨r, tl2, th2⟩
    have hp2 : th2.priorities = th1.priorities := by
      have h3 : (w.pop th1).2.2 = th2 := by rw [hpop]
      rw [← h3, ThreadList.pop_priorities]
    rw [hpop] at hrel
    rcases r with _ | ⟨h2, st2⟩
    · obtain rfl := (Option.some.inj hrel).symm
      show th2.priorities o = op
      rw [hp2, hth1p]
    · obtain rfl := (Option.some.inj hrel).symm
      show th2.priorities o = op
      rw [hp2, hth1p]

/-- Initial system for the C2 witness: three runnable threads with
priorities 1, 5 and 0, an untouched blocklist and an unlocked lock. -/
def c2Sys0 : LockSys :=
  { threads :=
      { priorities := fun t => if t = 0 then 1 else if t = 1 then 5 else 0
        states := fun t => if t < 3 then ThreadState.Running
          else ThreadState.Invalid
        thread_blocklist := fun _ => none
        current_thread := none }
    state := LockState.Unlocked }

/-- State after thread 0 acquires the lock. -/
def c2Sys1 : LockSys := (Lock.acquire (withCurrent c2Sys0 (some 0))).getD c2Sys0

/-- State after thread 1 (priority 5) then contends: thread 0 (original
priority 1) inherits priority 5. -/
def c2Sys2 : LockSys := (Lock.acquire (withCurrent c2Sys1 (some 1))).getD c2Sys0

/-- Witness for C2: after the two concrete acquires the lock is
`Locked 0 1 ⟨some 1⟩` and the theorem yields the priority bounds there. -/
theorem lock_priority_inheritance_witness :
    1 ≤ c2Sys2.threads.priorities 0 ∧
    ∀ l, isChain c2Sys2.threads.thread_blocklist (some 1) l →
      ∀ m ∈ l, c2Sys2.threads.priorities m ≤ c2Sys2.threads.priorities 0 :=
  (lock_priority_inheritance c2Sys0 c2Sys2 rfl
    (LockReach.step
      (LockReach.step (LockReach.refl c2Sys0)
        (LockStep.acquire 0 (by decide) (by decide) rfl))
      (LockStep.acquire 1 (by decide) (by decide) rfl))).1 0 1 ⟨some 1⟩ rfl
